import Mathlib

/-!
Verification development for a Minecraft schematic parser / viewer.

The development shallowly embeds the JavaScript source:

* `src/parser.js` — `decodeVarintArray`, `parseSchem`, `parseLitematic`
  (with the bit-packed long-array decoder and both format adapters);
* `src/blockColors.js` (the module imported as `./blockColors.js`) —
  `isAir`, `getBaseBlockId`;
* the viewer module — `floodFill`.

Machine integers are modelled as `Nat`/`Int` with explicit wrapping where
JavaScript wraps (`Int32Array` storage, `BigInt.asUintN 64`).  Fallible
code returns `Except String`.  JavaScript string operations are modelled
over `List Char` (ASCII case folding, which is what block identifiers use).
-/

namespace SchematicViewer

/-- JavaScript `ToInt32` wrap: the value stored by an `Int32Array` for a
(non-negative) numeric bit pattern. -/
def toInt32 (n : Nat) : Int :=
  if n % 2 ^ 32 < 2 ^ 31 then ((n % 2 ^ 32 : Nat) : Int)
  else ((n % 2 ^ 32 : Nat) : Int) - 2 ^ 32

/-- `BigInt.asUintN(64, x)`: reinterpret a (possibly signed) 64-bit word as
an unsigned 64-bit value. -/
def toU64 (x : Int) : Nat := (x % (2 ^ 64 : Int)).toNat

-- ─── String helpers (modelling JS string primitives on block states) ───

/-- Characters of `s.split('[')[0]`: everything before the first `'['`. -/
def takeUntilBracket : List Char → List Char
  | [] => []
  | c :: cs => if c = '[' then [] else c :: takeUntilBracket cs

/-- `String.prototype.toLowerCase` (ASCII range, which covers block ids). -/
def lowerChars (l : List Char) : List Char := l.map Char.toLower

/-- JS `String.prototype.replace(pat, '')` with a string pattern removes
only the FIRST occurrence of `pat`. -/
def removeFirstOcc (pat : List Char) : List Char → List Char
  | [] => []
  | c :: cs =>
    if pat.isPrefixOf (c :: cs) then (c :: cs).drop pat.length
    else c :: removeFirstOcc pat cs

/-- `blockState.split('[')[0].toLowerCase()` as a `String` function. -/
def baseLower (s : String) : String :=
  String.mk (lowerChars (takeUntilBracket s.data))

-- ─── blockColors.js : isAir and getBaseBlockId ───

/--
Embedding of `isAir` (blockColors.js):
```js
export function isAir(blockState) {
    if (!blockState) return true;
    const b = blockState.split('[')[0].toLowerCase();
    return b === 'minecraft:air' || b === 'minecraft:cave_air' || b === 'minecraft:void_air' || b === 'air';
}
```
`none` models a JS `null`/`undefined` argument; the empty string is also
falsy in JS, hence the extra test. -/
def isAir : Option String → Bool
  | none => true
  | some s =>
    if s = "" then true
    else
      let b := baseLower s
      b = "minecraft:air" || b = "minecraft:cave_air" || b = "minecraft:void_air" || b = "air"

/--
Embedding of `getBaseBlockId` (blockColors.js):
```js
export function getBaseBlockId(blockState) {
    if (!blockState) return null;
    return blockState.split('[')[0].toLowerCase().replace('minecraft:', '');
}
```
The result is again a JS string; a falsy (empty) input gives `null`.
Callers test the result for truthiness, so we keep the raw string (which
may be empty — the caller's `!baseId` test is modelled where it occurs). -/
def getBaseBlockId : Option String → Option String
  | none => none
  | some s =>
    if s = "" then none
    else some (String.mk (removeFirstOcc "minecraft:".data (lowerChars (takeUntilBracket s.data))))

-- ─── parser.js : varint decoder ───

/--
Inner `do … while` loop of `decodeVarintArray`: decode one varint starting
at the head of `bytes`, with accumulated `value` (as an unsigned 32-bit
pattern: JS `|` and `<<` coerce to 32-bit) and accumulated `shift`.
```js
do {
    if (cursor >= bytes.length) { throw new Error(`Unexpected end of varint data at index ${i}`); }
    b = bytes[cursor++];
    value |= (b & 0x7F) << shift;
    shift += 7;
} while ((b & 0x80) !== 0);
```
JS `<<` uses the shift count modulo 32; `x | y` on 32-bit patterns is
`(x ||| y) % 2^32`.  Returns the value pattern and the remaining bytes. -/
def decodeVarintLoop : List Nat → Nat → Nat → Except String (Nat × List Nat)
  | [], _, _ => .error "Unexpected end of varint data"
  | b :: rest, value, shift =>
    let value' := (value ||| ((b &&& 0x7F) <<< (shift % 32))) % 2 ^ 32
    if b &&& 0x80 ≠ 0 then decodeVarintLoop rest value' (shift + 7)
    else .ok (value', rest)

/-- Outer loop of `decodeVarintArray`: decode `count` varints in sequence;
each decoded pattern is stored into an `Int32Array` (`toInt32`). -/
def decodeVarintAux : Nat → List Nat → Except String (List Int)
  | 0, _ => .ok []
  | count + 1, bytes => do
    let (v, rest) ← decodeVarintLoop bytes 0 0
    let vs ← decodeVarintAux count rest
    pure (toInt32 v :: vs)

/--
Embedding of `decodeVarintArray(bytes, expectedCount)` (parser.js):
produces `expectedCount` 32-bit integers from a LEB128-style byte buffer,
or fails when the buffer is exhausted mid-decode. -/
def decodeVarintArray (bytes : List Nat) (expectedCount : Nat) : Except String (List Int) :=
  decodeVarintAux expectedCount bytes

/-- Modelled from the spec (§8, varint round trip): the LEB128 encoding of
one non-negative integer — 7 low bits per byte, high bit set on
continuation bytes. -/
def encodeVarint (v : Nat) : List Nat :=
  if h : v < 128 then [v]
  else (v % 128 + 128) :: encodeVarint (v / 128)
decreasing_by exact Nat.div_lt_self (by omega) (by omega)

/-- Modelled from the spec: LEB128 encoding of a list, concatenated. -/
def encodeVarintList (vs : List Nat) : List Nat := (vs.map encodeVarint).flatten

/-- Skip one complete varint (a maximal run of continuation bytes followed
by one terminating byte); `none` when the buffer ends inside the varint. -/
def skipVarint : List Nat → Option (List Nat)
  | [] => none
  | b :: rest => if b &&& 0x80 ≠ 0 then skipVarint rest else some rest

theorem skipVarint_length : ∀ l r, skipVarint l = some r → r.length < l.length := by
  intro l
  induction l with
  | nil => intro r h; simp [skipVarint] at h
  | cons b rest ih =>
    intro r h
    simp only [skipVarint] at h
    split at h
    · exact Nat.lt_trans (ih r h) (by simp)
    · cases h; simp

/-- Number of complete varints a byte buffer holds (greedy decode). -/
def countVarints (l : List Nat) : Nat :=
  match h : skipVarint l with
  | none => 0
  | some r => countVarints r + 1
termination_by l.length
decreasing_by exact skipVarint_length l r h

-- ─── parser.js : bit-packed long-array decoder (parseLitematic) ───

/-- Fuel-driven helper for `ceilLog2` (structural, so that the kernel can
evaluate it). -/
def clog2Aux : Nat → Nat → Nat
  | 0, _ => 0
  | fuel + 1, p => if p ≤ 1 then 0 else clog2Aux fuel ((p + 1) / 2) + 1

/-- `Math.ceil(Math.log2(p))` on positive integers. -/
def ceilLog2 (p : Nat) : Nat := clog2Aux p p

/--
One entry of the spanning (pre-1.16) layout, from the `isSpanning` branch
of `parseLitematic`:
```js
const startBit = i * bitsPerEntry;
const startIndex = Math.floor(startBit / 64);
const endBit = startBit + bitsPerEntry - 1;
const endIndex = Math.floor(endBit / 64);
const startBitOffset = startBit % 64;
let val1 = BigInt.asUintN(64, BigInt(blockStatesLong[startIndex]));
if (startIndex === endIndex) { paletteIdx = Number((val1 >> BigInt(startBitOffset)) & mask); }
else {
    const endBitOffset = 64 - startBitOffset;
    const nextLong = blockStatesLong[endIndex] !== undefined ? BigInt(blockStatesLong[endIndex]) : 0n;
    let val2 = BigInt.asUintN(64, nextLong);
    const part1 = (val1 >> BigInt(startBitOffset)) & mask;
    const part2 = (val2 << BigInt(endBitOffset)) & mask;
    paletteIdx = Number(part1 | part2);
}
```
(In the spanning branch `startIndex` is always in bounds — the word-array
length was checked to equal the spanning expectation — so reading it with
a zero default is unobservable.) -/
def spanningEntry (words : List Int) (bitsPerEntry i : Nat) : Nat :=
  let mask := 2 ^ bitsPerEntry - 1
  let startBit := i * bitsPerEntry
  let startIndex := startBit / 64
  let endBit := startBit + bitsPerEntry - 1
  let endIndex := endBit / 64
  let startBitOffset := startBit % 64
  let val1 := toU64 (words.getD startIndex 0)
  if startIndex = endIndex then (val1 >>> startBitOffset) &&& mask
  else
    let endBitOffset := 64 - startBitOffset
    let val2 := toU64 (words.getD endIndex 0)
    ((val1 >>> startBitOffset) &&& mask) ||| ((val2 <<< endBitOffset) &&& mask)

/--
One entry of the non-spanning (1.16+) layout, from the `else` branch of
`parseLitematic`:
```js
const longIndex = Math.floor(i / entriesPerLong);
const bitOffset = (i % entriesPerLong) * bitsPerEntry;
let longVal = blockStatesLong[longIndex];
if (longVal === undefined) { longVal = 0n; }
const unsignedLong = BigInt.asUintN(64, BigInt(longVal));
const paletteIdx = Number((unsignedLong >> BigInt(bitOffset)) & mask);
```
-/
def nonSpanningEntry (words : List Int) (bitsPerEntry i : Nat) : Nat :=
  let mask := 2 ^ bitsPerEntry - 1
  let entriesPerLong := 64 / bitsPerEntry
  let longIndex := i / entriesPerLong
  let bitOffset := (i % entriesPerLong) * bitsPerEntry
  let unsignedLong := toU64 (words.getD longIndex 0)
  (unsignedLong >>> bitOffset) &&& mask

/--
The bit-packed decode of `parseLitematic` (lines 129-183): given the
64-bit word array, the palette size and the expected element count,
produce the `Int32Array` of palette indices.
```js
const bitsPerEntry = Math.max(2, Math.ceil(Math.log2(palette.length)));
const entriesPerLong = Math.floor(64 / bitsPerEntry);
const expectedSpanning = Math.ceil((totalBlocks * bitsPerEntry) / 64);
const expectedNonSpanning = Math.ceil(totalBlocks / Math.floor(64 / bitsPerEntry));
const isSpanning = blockStatesLong.length === expectedSpanning && expectedSpanning !== expectedNonSpanning;
```
-/
def decodePacked (words : List Int) (paletteSize totalBlocks : Nat) : List Int :=
  let bitsPerEntry := max 2 (ceilLog2 paletteSize)
  let entriesPerLong := 64 / bitsPerEntry
  let expectedSpanning := (totalBlocks * bitsPerEntry + 63) / 64
  let expectedNonSpanning := (totalBlocks + entriesPerLong - 1) / entriesPerLong
  let isSpanning := words.length = expectedSpanning ∧ expectedSpanning ≠ expectedNonSpanning
  if isSpanning then (List.range totalBlocks).map (fun i => toInt32 (spanningEntry words bitsPerEntry i))
  else (List.range totalBlocks).map (fun i => toInt32 (nonSpanningEntry words bitsPerEntry i))

-- ─── parser.js : unified Schematic output and the two adapters ───

/-- The linear index used by `parseSchem.getBlock`:
`x + z * width + y * width * length`. -/
def schemIndex (width length x y z : Int) : Int :=
  x + z * width + y * width * length

/-- The linear index used by `parseLitematic.getBlock`:
`y * length * width + z * width + x`. -/
def litematicIndex (width length x y z : Int) : Int :=
  y * length * width + z * width + x

/-- The unified `Schematic` object (minus the two `getBlock` closures,
which are the functions `schemGetBlock` / `litematicGetBlock` below).
`paletteList` slots are `none` for unmapped (`null`) entries. -/
structure Grid where
  width : Int
  height : Int
  length : Int
  name : String
  paletteList : List (Option String)
  blockIndices : List Int
  totalNonAir : Nat
deriving Repr, DecidableEq

/-- `paletteList[paletteIdx] || null`: array read with a possibly
negative / out-of-range index, `undefined` and the empty string both
collapsing to `null` under `||`. -/
def lookupDesc (paletteList : List (Option String)) (v : Int) : Option String :=
  if v < 0 then none
  else
    match paletteList.getD v.toNat none with
    | none => none
    | some s => if s = "" then none else some s

/-- `getBlock` closure of `parseSchem`:
```js
function getBlock(x, y, z) {
    if (x < 0 || x >= width || y < 0 || y >= height || z < 0 || z >= length) return null;
    const index = x + z * width + y * width * length;
    const paletteIdx = blockIndices[index];
    return paletteList[paletteIdx] || null;
}
```
(An out-of-range flat read gives `undefined`, and `paletteList[undefined]`
is again `undefined`, hence `none`.) -/
def schemGetBlock (g : Grid) (x y z : Int) : Option String :=
  if x < 0 ∨ g.width ≤ x ∨ y < 0 ∨ g.height ≤ y ∨ z < 0 ∨ g.length ≤ z then none
  else
    match g.blockIndices.get? (schemIndex g.width g.length x y z).toNat with
    | none => none
    | some v => lookupDesc g.paletteList v

/-- `getBlock` closure of `parseLitematic` (same shape, YZX index). -/
def litematicGetBlock (g : Grid) (x y z : Int) : Option String :=
  if x < 0 ∨ g.width ≤ x ∨ y < 0 ∨ g.height ≤ y ∨ z < 0 ∨ g.length ≤ z then none
  else
    match g.blockIndices.get? (litematicIndex g.width g.length x y z).toNat with
    | none => none
    | some v => lookupDesc g.paletteList v

-- ─── parseSchem ───

/-- Input tree of `parseSchem` (after the `nbtData.Schematic || nbtData`
unwrap): the compound-tree fields the function reads.  Palette values are
the non-negative NBT integer indices. -/
structure SchemTree where
  width : Int
  height : Int
  length : Int
  metadataName : Option String
  palette : Option (List (String × Nat))
  blockData : Option (List Nat)

/-- Air test used by `parseSchem` when building `airIndices`
(`!state || state === 'minecraft:air' || state === 'minecraft:cave_air' || state === 'minecraft:void_air'`):
exact, case-sensitive comparison on the full descriptor, with falsy
(`null` / empty) slots also counting as air. -/
def schemSlotAir : Option String → Bool
  | none => true
  | some s => s = "" || s = "minecraft:air" || s = "minecraft:cave_air" || s = "minecraft:void_air"

/-- Membership of a decoded palette index in `parseSchem`'s `airIndices`
set (which only ever contains in-range slots of `paletteList`). -/
def schemAirIdx (paletteList : List (Option String)) (v : Int) : Bool :=
  if v < 0 then false
  else
    match paletteList.get? v.toNat with
    | none => false
    | some slot => schemSlotAir slot

/-- `paletteList` construction of `parseSchem`: an array of size
`maxIndex + 1` filled with `null`, then `paletteList[index] = blockState`
for each palette entry (a later entry with the same index wins). -/
def buildSchemPalette (palette : List (String × Nat)) : List (Option String) :=
  let maxIndex := palette.foldl (fun a e => max a e.2) 0
  (List.range (maxIndex + 1)).map (fun i => (palette.reverse.find? (fun e => e.2 = i)).map (·.1))

/-- `root.Metadata?.Name || root.Metadata?.name || 'Unnamed'` (JS `||`
falls through on an empty string). -/
def resolveName (metadataName : Option String) (fallback : String) : String :=
  match metadataName with
  | some n => if n = "" then fallback else n
  | none => fallback

/--
Embedding of `parseSchem(nbtData)` (parser.js lines 41-90).  The decode
count is `Width * Height * Length`; a negative product makes the
`new Int32Array(totalBlocks)` allocation throw a `RangeError` in JS,
modelled as an error result.  No other dimension validation exists. -/
def parseSchem (t : SchemTree) : Except String Grid :=
  match t.palette with
  | none => .error "No Palette found in .schem file"
  | some palette =>
    let paletteList := buildSchemPalette palette
    match t.blockData with
    | none => .error "No BlockData found in .schem file"
    | some bytes =>
      let totalBlocksI := t.width * t.height * t.length
      if totalBlocksI < 0 then .error "RangeError: invalid typed array length"
      else
        match decodeVarintArray bytes totalBlocksI.toNat with
        | .error e => .error e
        | .ok blockIndices =>
          let totalNonAir := blockIndices.countP (fun v => ! schemAirIdx paletteList v)
          .ok { width := t.width, height := t.height, length := t.length,
                name := resolveName t.metadataName "Unnamed",
                paletteList := paletteList,
                blockIndices := blockIndices,
                totalNonAir := totalNonAir }

-- ─── parseLitematic ───

/-- `BlockStatePalette` entry: `{ Name, Properties }`. -/
structure PaletteEntry where
  name : String
  properties : Option (List (String × String))
deriving Repr, DecidableEq

/-- A `Regions` entry: the fields of a litematic region that
`parseLitematic` reads. -/
structure LitRegion where
  sizeX : Int
  sizeY : Int
  sizeZ : Int
  blockStatePalette : Option (List PaletteEntry)
  blockStates : Option (List Int)
deriving Repr, DecidableEq

/-- Input tree of `parseLitematic`: `Metadata?.Name` and the ordered
key/value pairs of the `Regions` compound. -/
structure LitTree where
  metadataName : Option String
  regions : Option (List (String × LitRegion))

/-- Stable insertion (by property key) modelling the stable
`Array.prototype.sort` with the `localeCompare` comparator on ASCII keys. -/
def insertByKey (kv : String × String) : List (String × String) → List (String × String)
  | [] => [kv]
  | h :: t => if kv.1 < h.1 then kv :: h :: t else h :: insertByKey kv t

/-- Sort property pairs by key (stable). -/
def sortProps (ps : List (String × String)) : List (String × String) :=
  ps.foldl (fun acc kv => insertByKey kv acc) []

/-- Canonical descriptor string of one palette entry
(`Name` plus `[k1=v1,k2=v2]` when `Properties` is non-empty):
```js
let name = entry.Name;
if (entry.Properties && Object.keys(entry.Properties).length > 0) {
    const props = Object.entries(entry.Properties)
        .sort(([a], [b]) => a.localeCompare(b))
        .map(([k, v]) => `${k}=${v}`).join(',');
    name += `[${props}]`;
}
```
-/
def descOf (e : PaletteEntry) : String :=
  match e.properties with
  | none => e.name
  | some ps =>
    if ps.length = 0 then e.name
    else e.name ++ "[" ++ String.intercalate "," ((sortProps ps).map (fun kv => kv.1 ++ "=" ++ kv.2)) ++ "]"

/-- Air test used by `parseLitematic` when building its `airIndices`
(`state.split('[')[0].toLowerCase()` compared to the three namespaced
ids — note: no bare `air` case). -/
def litSlotAir (s : String) : Bool :=
  let b := baseLower s
  b = "minecraft:air" || b = "minecraft:cave_air" || b = "minecraft:void_air"

/-- Membership of a decoded palette index in `parseLitematic`'s
`airIndices` set. -/
def litAirIdx (descs : List String) (v : Int) : Bool :=
  if v < 0 then false
  else
    match descs.get? v.toNat with
    | none => false
    | some s => litSlotAir s

/--
Embedding of `parseLitematic(nbtData)` (parser.js lines 94-209): uses the
first region only; dimensions are absolute values of the region `Size`;
palette descriptors are built by `descOf`; block indices come from
`decodePacked`. -/
def parseLitematic (t : LitTree) : Except String Grid :=
  match t.regions with
  | none => .error "No Regions found in .litematic file"
  | some [] => .error "Empty Regions in .litematic file"
  | some ((regionName, region) :: _) =>
    let width := region.sizeX.natAbs
    let height := region.sizeY.natAbs
    let length := region.sizeZ.natAbs
    match region.blockStatePalette with
    | none => .error "No BlockStatePalette found"
    | some palette =>
      if palette.length = 0 then .error "No BlockStatePalette found"
      else
        let descs := palette.map descOf
        match region.blockStates with
        | none => .error "No BlockStates found"
        | some words =>
          let totalBlocks := width * height * length
          let blockIndices := decodePacked words palette.length totalBlocks
          let totalNonAir := blockIndices.countP (fun v => ! litAirIdx descs v)
          .ok { width := (width : Int), height := (height : Int), length := (length : Int),
                name := resolveName t.metadataName (if regionName = "" then "Unnamed" else regionName),
                paletteList := descs.map some,
                blockIndices := blockIndices,
                totalNonAir := totalNonAir }

-- ─── viewer : floodFill ───

/-- `[[cx - 1, cz], [cx + 1, cz], [cx, cz - 1], [cx, cz + 1]]`. -/
def neighborsOf (c : Int × Int) : List (Int × Int) :=
  [(c.1 - 1, c.2), (c.1 + 1, c.2), (c.1, c.2 - 1), (c.1, c.2 + 1)]

/-- Result shape of `floodFill`:
`{ cells, minX, minZ, maxX, maxZ, w, h, count }`. -/
structure FloodResult where
  cells : Finset (Int × Int)
  minX : Int
  minZ : Int
  maxX : Int
  maxZ : Int
  w : Int
  h : Int
  count : Nat
deriving DecidableEq

/-- Mutable state of the BFS loop in `floodFill`: the visited set, the
worklist and the running bounding box. -/
structure BfsState where
  cells : Finset (Int × Int)
  queue : List (Int × Int)
  minX : Int
  maxX : Int
  minZ : Int
  maxZ : Int
deriving DecidableEq

/-- Body of the `for (const [nx, nz] of neighbors)` loop of `floodFill`:
```js
const key = `${nx},${nz}`;
if (cells.has(key)) continue;
if (nx < 0 || nx >= schematic.width || nz < 0 || nz >= schematic.length) continue;
const neighborId = getBaseBlockId(schematic.getBlock(nx, currentLayer, nz));
if (neighborId === baseId) {
    cells.add(key); queue.push([nx, nz]);
    if (nx < minX) minX = nx;  if (nx > maxX) maxX = nx;
    if (nz < minZ) minZ = nz;  if (nz > maxZ) maxZ = nz;
}
```
`gb x z` stands for `schematic.getBlock(x, currentLayer, z)`. -/
def visitNeighbor (gb : Int → Int → Option String) (width length : Int) (baseId : String)
    (st : BfsState) (n : Int × Int) : BfsState :=
  if n ∈ st.cells then st
  else if n.1 < 0 ∨ width ≤ n.1 ∨ n.2 < 0 ∨ length ≤ n.2 then st
  else if getBaseBlockId (gb n.1 n.2) = some baseId then
    { cells := insert n st.cells
      queue := st.queue ++ [n]
      minX := if n.1 < st.minX then n.1 else st.minX
      maxX := if st.maxX < n.1 then n.1 else st.maxX
      minZ := if n.2 < st.minZ then n.2 else st.minZ
      maxZ := if st.maxZ < n.2 then n.2 else st.maxZ }
  else st

/-- Exhaustive description of one `visitNeighbor` step: either the state
is unchanged, or a fresh in-bounds matching neighbor is admitted. -/
theorem visitNeighbor_cases (gb : Int → Int → Option String) (width length : Int)
    (baseId : String) (st : BfsState) (n : Int × Int) :
    visitNeighbor gb width length baseId st n = st ∨
      (n ∉ st.cells ∧ ¬(n.1 < 0 ∨ width ≤ n.1 ∨ n.2 < 0 ∨ length ≤ n.2) ∧
        getBaseBlockId (gb n.1 n.2) = some baseId ∧
        visitNeighbor gb width length baseId st n =
          { cells := insert n st.cells
            queue := st.queue ++ [n]
            minX := if n.1 < st.minX then n.1 else st.minX
            maxX := if st.maxX < n.1 then n.1 else st.maxX
            minZ := if n.2 < st.minZ then n.2 else st.minZ
            maxZ := if st.maxZ < n.2 then n.2 else st.maxZ }) := by
  unfold visitNeighbor
  by_cases h1 : n ∈ st.cells
  · simp [h1]
  · by_cases h2 : n.1 < 0 ∨ width ≤ n.1 ∨ n.2 < 0 ∨ length ≤ n.2
    · simp [h1, h2]
    · by_cases h3 : getBaseBlockId (gb n.1 n.2) = some baseId
      · right; simp [h1, h2, h3]
      · simp [h1, h2, h3]

/-- Fold form of the neighbor loop: the visited set only grows, stays
inside any in-bounds-closed superset `S`, and each admitted cell is
matched by exactly one enqueue. -/
theorem visitFold_invariant (gb : Int → Int → Option String) (width length : Int)
    (baseId : String) (S : Finset (Int × Int))
    (hbox : ∀ p : Int × Int, ¬(p.1 < 0 ∨ width ≤ p.1 ∨ p.2 < 0 ∨ length ≤ p.2) → p ∈ S) :
    ∀ (ns : List (Int × Int)) (st : BfsState), st.cells ⊆ S →
      (List.foldl (visitNeighbor gb width length baseId) st ns).cells ⊆ S ∧
      st.cells ⊆ (List.foldl (visitNeighbor gb width length baseId) st ns).cells ∧
      (List.foldl (visitNeighbor gb width length baseId) st ns).cells.card + st.queue.length
        = st.cells.card + (List.foldl (visitNeighbor gb width length baseId) st ns).queue.length := by
  intro ns
  induction ns with
  | nil => intro st h; exact ⟨h, Finset.Subset.refl _, rfl⟩
  | cons n ns ih =>
    intro st h
    rcases visitNeighbor_cases gb width length baseId st n with heq | ⟨hnm, hin, _, heq⟩
    · rw [List.foldl_cons, heq]; exact ih st h
    · rw [List.foldl_cons, heq]
      set st' : BfsState :=
        { cells := insert n st.cells
          queue := st.queue ++ [n]
          minX := if n.1 < st.minX then n.1 else st.minX
          maxX := if st.maxX < n.1 then n.1 else st.maxX
          minZ := if n.2 < st.minZ then n.2 else st.minZ
          maxZ := if st.maxZ < n.2 then n.2 else st.maxZ } with hst'
      have hsub' : st'.cells ⊆ S := Finset.insert_subset (hbox n hin) h
      obtain ⟨h1, h2, h3⟩ := ih st' hsub'
      refine ⟨h1, fun c hc => h2 (Finset.mem_insert_of_mem hc), ?_⟩
      have hc' : st'.cells.card = st.cells.card + 1 := Finset.card_insert_of_not_mem hnm
      have hq' : st'.queue.length = st.queue.length + 1 := by simp [hst']
      omega

/-- The `while (queue.length > 0)` loop of `floodFill`.  `S` is any
finite superset of the in-bounds cells (plus whatever is already
visited); it bounds the visited set and so forces termination. -/
def bfsLoop (gb : Int → Int → Option String) (width length : Int) (baseId : String)
    (S : Finset (Int × Int))
    (hbox : ∀ p : Int × Int, ¬(p.1 < 0 ∨ width ≤ p.1 ∨ p.2 < 0 ∨ length ≤ p.2) → p ∈ S)
    (st : BfsState) (hsub : st.cells ⊆ S) : BfsState :=
  match hq : st.queue with
  | [] => st
  | c :: rest =>
    bfsLoop gb width length baseId S hbox
      (List.foldl (visitNeighbor gb width length baseId) { st with queue := rest } (neighborsOf c))
      ((visitFold_invariant gb width length baseId S hbox (neighborsOf c)
        { st with queue := rest } hsub).1)
termination_by (S.card - st.cells.card) * (S.card + 1) + st.queue.length
decreasing_by
  obtain ⟨h1, h2, h3⟩ := visitFold_invariant gb width length baseId S hbox (neighborsOf c)
    { st with queue := rest } hsub
  set F := List.foldl (visitNeighbor gb width length baseId) { st with queue := rest }
    (neighborsOf c) with hF
  simp only at h1 h2 h3
  have hcardF : F.cells.card ≤ S.card := Finset.card_le_card h1
  have hcardst : st.cells.card ≤ F.cells.card := Finset.card_le_card h2
  have hqlen : st.queue.length = rest.length + 1 := by rw [hq]; simp
  set k := F.cells.card - st.cells.card with hk
  have hFq : F.queue.length = rest.length + k := by omega
  have hsplit : S.card - st.cells.card = (S.card - F.cells.card) + k := by omega
  have hprod : (S.card - st.cells.card) * (S.card + 1)
      = (S.card - F.cells.card) * (S.card + 1) + k * (S.card + 1) := by
    rw [hsplit, Nat.add_mul]
  have hkk : k * (S.card + 1) = k * S.card + k := by ring
  rw [hqlen, hFq, hprod, hkk]
  have hnn : 0 ≤ k * S.card := Nat.zero_le _
  linarith

/--
Embedding of `floodFill(startX, startZ)` (viewer module):
```js
function floodFill(startX, startZ) {
    const baseId = getBaseBlockId(schematic.getBlock(startX, currentLayer, startZ));
    if (!baseId || isAir('minecraft:' + baseId)) return null;
    const cells = new Set();
    const queue = [[startX, startZ]];
    cells.add(`${startX},${startZ}`);
    let minX = startX, maxX = startX, minZ = startZ, maxZ = startZ;
    while (queue.length > 0) { ... }
    const w = maxX - minX + 1;
    const h = maxZ - minZ + 1;
    return { cells, minX, minZ, maxX, maxZ, w, h, count: cells.size };
}
```
`gb x z` stands for the layer slice `schematic.getBlock(x, currentLayer, z)`;
`width`/`length` are `schematic.width` / `schematic.length`. -/
def floodFill (gb : Int → Int → Option String) (width length : Int)
    (startX startZ : Int) : Option FloodResult :=
  match getBaseBlockId (gb startX startZ) with
  | none => none
  | some baseId =>
    if baseId = "" || isAir (some ("minecraft:" ++ baseId)) then none
    else
      let S : Finset (Int × Int) :=
        insert (startX, startZ) (Finset.Icc (0 : Int) (width - 1) ×ˢ Finset.Icc (0 : Int) (length - 1))
      let st0 : BfsState :=
        { cells := {(startX, startZ)}, queue := [(startX, startZ)],
          minX := startX, maxX := startX, minZ := startZ, maxZ := startZ }
      let fin := bfsLoop gb width length baseId S
        (by
          intro p hp
          apply Finset.mem_insert_of_mem
          rw [Finset.mem_product, Finset.mem_Icc, Finset.mem_Icc]
          omega)
        st0
        (by simp [st0, S])
      some { cells := fin.cells, minX := fin.minX, minZ := fin.minZ,
             maxX := fin.maxX, maxZ := fin.maxZ,
             w := fin.maxX - fin.minX + 1, h := fin.maxZ - fin.minZ + 1,
             count := fin.cells.card }

/-- Admissibility of a cell as a flood-fill member: in bounds and its
base identifier equals the start cell's. -/
def ffStepTarget (gb : Int → Int → Option String) (width length : Int) (baseId : String)
    (n : Int × Int) : Prop :=
  ¬(n.1 < 0 ∨ width ≤ n.1 ∨ n.2 < 0 ∨ length ≤ n.2) ∧
    getBaseBlockId (gb n.1 n.2) = some baseId

/-- One admissible flood-fill step: `n` is a 4-neighbor of `c`, in bounds,
and its base identifier equals the start cell's. -/
def ffStep (gb : Int → Int → Option String) (width length : Int) (baseId : String)
    (c n : Int × Int) : Prop :=
  n ∈ neighborsOf c ∧ ffStepTarget gb width length baseId n

-- ─── arithmetic bridges ───

theorem clog2Aux_eq (fuel : Nat) : ∀ p : Nat, p ≤ fuel → clog2Aux fuel p = Nat.clog 2 p := by
  induction fuel with
  | zero =>
    intro p hp
    have hp0 : p = 0 := Nat.le_zero.mp hp
    subst hp0
    simp [clog2Aux]
  | succ f ih =>
    intro p hp
    simp only [clog2Aux]
    split
    · next h1 => rw [Nat.clog_of_right_le_one h1]
    · next h1 =>
      have h2 : 2 ≤ p := by omega
      rw [ih ((p + 1) / 2) (by omega), Nat.clog_of_two_le (by norm_num) h2]
      norm_num

/-- The embedded `Math.ceil(Math.log2 p)` agrees with Mathlib's ceiling
logarithm. -/
theorem ceilLog2_eq_clog (p : Nat) : ceilLog2 p = Nat.clog 2 p :=
  clog2Aux_eq p p (Nat.le_refl p)

-- ─── claims ───

/-- **C5.** The two adapters' spatial addressing is equivalent: for all
`(x, y, z)` and equal dimensions, the dense-varint linear index
`x + z*Width + y*Width*Length` and the bit-packed linear index
`y*Length*Width + z*Width + x` coincide, so both `getBlock`
implementations read the same flat-array position. -/
theorem claim5_index_equivalence (width length x y z : Int) :
    schemIndex width length x y z = litematicIndex width length x y z := by
  unfold schemIndex litematicIndex
  ring

/-- **C1.** The bit-packed decoder computes
`bitsPerEntry = max 2 ⌈log2 paletteSize⌉`,
`expectedSpanning = ⌈N*bitsPerEntry/64⌉`,
`expectedNonSpanning = ⌈N/⌊64/bitsPerEntry⌋⌉`, and uses the spanning
layout iff the two expectations differ and the actual word-array length
equals the spanning expectation; in every other case it uses the
non-spanning layout. -/
theorem claim1_layout_selection (words : List Int) (paletteSize totalBlocks : Nat) :
    decodePacked words paletteSize totalBlocks =
      if (totalBlocks * max 2 (Nat.clog 2 paletteSize) + 63) / 64
          ≠ (totalBlocks + 64 / max 2 (Nat.clog 2 paletteSize) - 1)
              / (64 / max 2 (Nat.clog 2 paletteSize))
          ∧ words.length = (totalBlocks * max 2 (Nat.clog 2 paletteSize) + 63) / 64
      then (List.range totalBlocks).map
        (fun i => toInt32 (spanningEntry words (max 2 (Nat.clog 2 paletteSize)) i))
      else (List.range totalBlocks).map
        (fun i => toInt32 (nonSpanningEntry words (max 2 (Nat.clog 2 paletteSize)) i)) := by
  simp only [decodePacked, ceilLog2_eq_clog]
  by_cases h : (totalBlocks * max 2 (Nat.clog 2 paletteSize) + 63) / 64
      ≠ (totalBlocks + 64 / max 2 (Nat.clog 2 paletteSize) - 1)
          / (64 / max 2 (Nat.clog 2 paletteSize))
      ∧ words.length = (totalBlocks * max 2 (Nat.clog 2 paletteSize) + 63) / 64
  · rw [if_pos ⟨h.2, h.1⟩, if_pos h]
  · rw [if_neg (fun hc => h ⟨hc.2, hc.1⟩), if_neg h]

/-- **C10.** The bit-packed adapter's output depends only on the tree's
metadata and the first enumerated region (key and contents): two trees
agreeing on those produce identical results — additional regions are
ignored entirely. -/
theorem claim10_first_region_only (t1 t2 : LitTree) (k : String) (r : LitRegion)
    (rs1 rs2 : List (String × LitRegion))
    (h1 : t1.regions = some ((k, r) :: rs1))
    (h2 : t2.regions = some ((k, r) :: rs2))
    (hm : t1.metadataName = t2.metadataName) :
    parseLitematic t1 = parseLitematic t2 := by
  unfold parseLitematic
  rw [h1, h2, hm]

/-- Witness for C10: two concrete trees, the second with an extra region,
decode identically. -/
theorem claim10_witness :
    (LitTree.mk (some "House")
        (some [("main", LitRegion.mk 1 1 1 (some [PaletteEntry.mk "minecraft:stone" none]) (some [0]))])).regions
      = some [("main", LitRegion.mk 1 1 1 (some [PaletteEntry.mk "minecraft:stone" none]) (some [0]))]
    ∧ parseLitematic
        (LitTree.mk (some "House")
          (some [("main", LitRegion.mk 1 1 1 (some [PaletteEntry.mk "minecraft:stone" none]) (some [0]))]))
      = parseLitematic
        (LitTree.mk (some "House")
          (some [("main", LitRegion.mk 1 1 1 (some [PaletteEntry.mk "minecraft:stone" none]) (some [0])),
                 ("extra", LitRegion.mk 9 9 9 (some [PaletteEntry.mk "minecraft:dirt" none]) (some [37]))])) :=
  ⟨rfl, claim10_first_region_only _ _ "main"
    (LitRegion.mk 1 1 1 (some [PaletteEntry.mk "minecraft:stone" none]) (some [0]))
    [] [("extra", LitRegion.mk 9 9 9 (some [PaletteEntry.mk "minecraft:dirt" none]) (some [37]))]
    rfl rfl rfl⟩

-- ─── varint lemmas (C6 / C7) ───

theorem toInt32_of_lt {v : Nat} (h : v < 2 ^ 31) : toInt32 v = (v : Int) := by
  have h32 : v < 2 ^ 32 := lt_trans h (by norm_num)
  unfold toInt32
  rw [Nat.mod_eq_of_lt h32, if_pos h]

/-- A low byte test: the continuation bit of `d + 128` is set. -/
theorem contBit_set (d : Nat) (hd : d < 128) : (d + 128) &&& 0x80 ≠ 0 := by
  have : ((d + 128) &&& 2 ^ 7) = ((d + 128).testBit 7).toNat * 2 ^ 7 := Nat.and_two_pow _ 7
  have htb : (d + 128).testBit 7 = true := by
    rw [Nat.testBit_to_div_mod]
    have : (d + 128) / 2 ^ 7 = 1 := by omega
    simp only [this, decide_eq_true_eq]
  show ((d + 128) &&& 2 ^ 7) ≠ 0
  rw [this, htb]
  norm_num

/-- The continuation bit of a terminating byte `d < 128` is clear. -/
theorem contBit_clear (d : Nat) (hd : d < 128) : (d &&& 0x80) = 0 := by
  have : (d &&& 2 ^ 7) = (d.testBit 7).toNat * 2 ^ 7 := Nat.and_two_pow _ 7
  show (d &&& 2 ^ 7) = 0
  rw [this, Nat.testBit_lt_two_pow hd]
  rfl

/-- Disjoint accumulate: `acc ||| (m <<< k) = acc + m * 2^k` when `acc`
occupies only the low `k` bits. -/
theorem or_shiftLeft_eq_add {acc k : Nat} (m : Nat) (h : acc < 2 ^ k) :
    acc ||| (m <<< k) = acc + m * 2 ^ k := by
  rw [Nat.shiftLeft_eq, Nat.lor_comm, mul_comm m (2 ^ k), ← Nat.mul_add_lt_is_or h m]
  omega

/-- Decoding the LEB128 encoding of `v` from the head of the buffer
yields `acc + v * 2^shift` and consumes exactly the encoding. -/
theorem decodeVarintLoop_encode (v : Nat) : ∀ (rest : List Nat) (acc shift : Nat),
    acc < 2 ^ shift → acc + v * 2 ^ shift < 2 ^ 31 → shift < 32 →
    decodeVarintLoop (encodeVarint v ++ rest) acc shift = .ok (acc + v * 2 ^ shift, rest) := by
  induction v using Nat.strong_induction_on with
  | _ v ih =>
    intro rest acc shift h1 h2 h3
    rw [encodeVarint]
    split
    · next hv =>
      simp only [List.cons_append, List.nil_append, decodeVarintLoop]
      have hmod : shift % 32 = shift := Nat.mod_eq_of_lt h3
      have hand : v &&& 0x7F = v := by
        have : (0x7F : Nat) = 2 ^ 7 - 1 := rfl
        rw [this, Nat.and_pow_two_sub_one_of_lt_two_pow hv]
      rw [hmod, hand, or_shiftLeft_eq_add v h1,
        Nat.mod_eq_of_lt (lt_trans h2 (by norm_num)), if_neg (by simp [contBit_clear v hv])]
      rfl
    · next hv =>
      push_neg at hv
      simp only [List.cons_append, decodeVarintLoop]
      have hmod : shift % 32 = shift := Nat.mod_eq_of_lt h3
      have hand : (v % 128 + 128) &&& 0x7F = v % 128 := by
        have h127 : (0x7F : Nat) = 2 ^ 7 - 1 := rfl
        rw [h127, Nat.and_pow_two_sub_one_eq_mod]
        omega
      have hbit : (v % 128 + 128) &&& 0x80 ≠ 0 := contBit_set _ (Nat.mod_lt _ (by norm_num))
      rw [hmod, hand, or_shiftLeft_eq_add _ h1, if_pos (by simpa using hbit)]
      have hval : acc + v % 128 * 2 ^ shift < 2 ^ 31 := by
        have : v % 128 * 2 ^ shift ≤ v * 2 ^ shift :=
          Nat.mul_le_mul_right _ (Nat.mod_le _ _)
        omega
      rw [Nat.mod_eq_of_lt (lt_trans hval (by norm_num))]
      have hshift7 : shift + 7 < 32 := by
        have hvs : 2 ^ 7 * 2 ^ shift ≤ v * 2 ^ shift :=
          Nat.mul_le_mul_right _ (by omega)
        have : 2 ^ (7 + shift) < 2 ^ 31 := by
          rw [pow_add]
          omega
        have := (Nat.pow_lt_pow_iff_right (a := 2) (by norm_num)).mp this
        omega
      have hacc' : acc + v % 128 * 2 ^ shift < 2 ^ (shift + 7) := by
        have hm : v % 128 ≤ 127 := by omega
        have : v % 128 * 2 ^ shift ≤ 127 * 2 ^ shift := Nat.mul_le_mul_right _ hm
        have hpow : 2 ^ (shift + 7) = 128 * 2 ^ shift := by
          rw [pow_add]
          ring
        omega
      have hcarry : acc + v % 128 * 2 ^ shift + v / 128 * 2 ^ (shift + 7)
          = acc + v * 2 ^ shift := by
        have hpow : 2 ^ (shift + 7) = 2 ^ shift * 128 := by
          rw [pow_add]
          ring
        have hv' : v % 128 + 128 * (v / 128) = v := Nat.mod_add_div v 128
        calc acc + v % 128 * 2 ^ shift + v / 128 * 2 ^ (shift + 7)
            = acc + (v % 128 + 128 * (v / 128)) * 2 ^ shift := by rw [hpow]; ring
          _ = acc + v * 2 ^ shift := by rw [hv']
      rw [List.append_eq, ih (v / 128) (Nat.div_lt_self (by omega) (by norm_num)) rest _ _ hacc'
        (by omega) hshift7, hcarry]

theorem encodeVarintList_cons (v : Nat) (vs : List Nat) :
    encodeVarintList (v :: vs) = encodeVarint v ++ encodeVarintList vs := by
  simp [encodeVarintList]

/-- List-level round trip, with an arbitrary unconsumed suffix. -/
theorem decodeVarintAux_encode : ∀ (vs : List Nat) (rest : List Nat),
    (∀ v ∈ vs, v < 2 ^ 31) →
    decodeVarintAux vs.length (encodeVarintList vs ++ rest)
      = .ok (vs.map Int.ofNat) := by
  intro vs
  induction vs with
  | nil => intro rest _; rfl
  | cons v vs ih =>
    intro rest h
    have hv : v < 2 ^ 31 := h v (List.mem_cons_self _ _)
    have hloop := decodeVarintLoop_encode v (encodeVarintList vs ++ rest) 0 0
      (by norm_num) (by simpa using hv) (by norm_num)
    rw [List.length_cons, encodeVarintList_cons, List.append_assoc]
    simp only [decodeVarintAux, bind, Except.bind, hloop]
    rw [ih rest (fun w hw => h w (List.mem_cons_of_mem _ hw))]
    have hzv : (0 : Nat) + v * 2 ^ 0 = v := by simp
    rw [hzv, toInt32_of_lt hv]
    simp only [pure, Except.pure, List.map_cons, Int.ofNat_eq_coe]

/-- **C6.** Encoding any list of non-negative 32-bit integers with the
LEB128 scheme and decoding with expected count equal to the list length
yields the original list exactly. -/
theorem claim6_varint_roundtrip (vs : List Nat) (h : ∀ v ∈ vs, v < 2 ^ 31) :
    decodeVarintArray (encodeVarintList vs) vs.length
      = .ok (vs.map Int.ofNat) := by
  have := decodeVarintAux_encode vs [] h
  rwa [List.append_nil] at this

/-- Witness for C6 at a concrete list (including the largest non-negative
32-bit integer). -/
theorem claim6_witness :
    decodeVarintArray (encodeVarintList [0, 300, 2147483647]) 3
      = .ok [(0 : Int), 300, 2147483647] :=
  claim6_varint_roundtrip [0, 300, 2147483647] (by decide)

-- ─── C7 : exhaustion characterization ───

theorem countVarints_of_skip_none {l : List Nat} (h : skipVarint l = none) :
    countVarints l = 0 := by
  rw [countVarints]
  split <;> simp_all

theorem countVarints_of_skip_some {l r : List Nat} (h : skipVarint l = some r) :
    countVarints l = countVarints r + 1 := by
  rw [countVarints]
  split <;> simp_all

/-- The inner decode loop succeeds exactly when `skipVarint` does, and
consumes the same bytes. -/
theorem decodeVarintLoop_skip : ∀ (bytes : List Nat) (acc shift : Nat),
    (skipVarint bytes = none →
      decodeVarintLoop bytes acc shift = .error "Unexpected end of varint data")
    ∧ ∀ r, skipVarint bytes = some r →
        ∃ v, decodeVarintLoop bytes acc shift = .ok (v, r) := by
  intro bytes
  induction bytes with
  | nil =>
    intro acc shift
    exact ⟨fun _ => rfl, fun r h => by simp [skipVarint] at h⟩
  | cons b rest ih =>
    intro acc shift
    constructor
    · intro h
      simp only [skipVarint] at h
      split at h
      · next hb =>
        simp only [decodeVarintLoop, if_pos hb]
        exact (ih _ _).1 h
      · exact absurd h (by simp)
    · intro r h
      simp only [skipVarint] at h
      split at h
      · next hb =>
        simp only [decodeVarintLoop, if_pos hb]
        exact (ih _ _).2 r h
      · next hb =>
        cases h
        exact ⟨(acc ||| ((b &&& 0x7F) <<< (shift % 32))) % 2 ^ 32,
          by simp [decodeVarintLoop, hb]⟩

/-- The outer decode succeeds iff the buffer holds at least `n` complete
varints. -/
theorem decodeVarintAux_ok_iff : ∀ (n : Nat) (bytes : List Nat),
    (∃ l, decodeVarintAux n bytes = .ok l) ↔ n ≤ countVarints bytes := by
  intro n
  induction n with
  | zero => intro bytes; simpa [decodeVarintAux] using ⟨[], rfl⟩
  | succ n ih =>
    intro bytes
    match hskip : skipVarint bytes with
    | none =>
      rw [countVarints_of_skip_none hskip]
      have herr := (decodeVarintLoop_skip bytes 0 0).1 hskip
      simp [decodeVarintAux, bind, Except.bind, herr]
    | some r =>
      rw [countVarints_of_skip_some hskip]
      obtain ⟨v, hok⟩ := (decodeVarintLoop_skip bytes 0 0).2 r hskip
      simp only [decodeVarintAux, bind, Except.bind, hok]
      constructor
      · rintro ⟨l, hl⟩
        match hrec : decodeVarintAux n r with
        | .error e => rw [hrec] at hl; exact absurd hl (by simp)
        | .ok l' =>
          have : n ≤ countVarints r := ih r |>.mp ⟨l', hrec⟩
          omega
      · intro hn
        obtain ⟨l', hl'⟩ := (ih r).mpr (by omega)
        exact ⟨toInt32 v :: l', by simp [hl', pure, Except.pure]⟩

/-- A successful decode returns exactly `n` elements. -/
theorem decodeVarintAux_length : ∀ (n : Nat) (bytes : List Nat) (l : List Int),
    decodeVarintAux n bytes = .ok l → l.length = n := by
  intro n
  induction n with
  | zero =>
    intro bytes l h
    simp only [decodeVarintAux] at h
    cases h
    rfl
  | succ n ih =>
    intro bytes l h
    match hloop : decodeVarintLoop bytes 0 0 with
    | .error e =>
      simp only [decodeVarintAux, bind, Except.bind, hloop] at h
      exact absurd h (by simp)
    | .ok (v, rest) =>
      simp only [decodeVarintAux, bind, Except.bind, hloop] at h
      match hrec : decodeVarintAux n rest with
      | .error e =>
        simp only [hrec] at h
        exact absurd h (by simp)
      | .ok l' =>
        simp only [hrec, pure, Except.pure, Except.ok.injEq] at h
        subst h
        simp [ih rest l' hrec]

/-- **C7.** The varint decoder fails iff the byte buffer is exhausted
before `N` elements are fully decoded (equivalently, it succeeds iff the
buffer holds at least `N` complete varints); in particular the
dense-varint adapter fed a `BlockData` buffer with fewer than
`Width*Height*Length` complete varints fails with a decode error rather
than returning a grid. -/
theorem claim7_truncation_failure :
    (∀ (bytes : List Nat) (n : Nat),
      (∃ l, decodeVarintArray bytes n = .ok l) ↔ n ≤ countVarints bytes)
    ∧ ∀ (t : SchemTree) (pal : List (String × Nat)) (bytes : List Nat),
        t.palette = some pal → t.blockData = some bytes →
        0 ≤ t.width * t.height * t.length →
        countVarints bytes < (t.width * t.height * t.length).toNat →
        ∃ msg, parseSchem t = .error msg := by
  constructor
  · intro bytes n
    exact decodeVarintAux_ok_iff n bytes
  · intro t pal bytes hpal hdata hnn hcount
    simp only [parseSchem, hpal, hdata]
    rw [if_neg (by omega)]
    match hdec : decodeVarintArray bytes (t.width * t.height * t.length).toNat with
    | .error e => exact ⟨e, rfl⟩
    | .ok l =>
      have : (t.width * t.height * t.length).toNat ≤ countVarints bytes :=
        (decodeVarintAux_ok_iff _ bytes).mp ⟨l, hdec⟩
      omega

/-- Witness for C7: a one-byte continuation-only buffer holds zero
complete varints, so a 1×1×1 schematic with that buffer fails. -/
theorem claim7_witness :
    (∃ l, decodeVarintArray [5, 200] 1 = .ok l)
    ∧ ∃ msg,
        parseSchem (SchemTree.mk 1 1 1 none (some [("minecraft:stone", 0)]) (some [128]))
          = .error msg := by
  constructor
  · apply (claim7_truncation_failure.1 [5, 200] 1).mpr
    rw [countVarints_of_skip_some (show skipVarint [5, 200] = some [200] by decide)]
    omega
  · apply claim7_truncation_failure.2 _ [("minecraft:stone", 0)] [128] rfl rfl (by norm_num)
    rw [countVarints_of_skip_none (show skipVarint [128] = none by decide)]
    norm_num

-- ─── C2 : spanning extraction reads the packed bit-stream ───

/-- The unsigned value of the whole word array read as one little-endian
bit-stream (word `j` contributes bits `64j … 64j+63`); absent trailing
words contribute zero. -/
def streamVal : List Int → Nat
  | [] => 0
  | w :: ws => toU64 w + 2 ^ 64 * streamVal ws

theorem toU64_lt (x : Int) : toU64 x < 2 ^ 64 := by
  unfold toU64
  have h1 : x % (2 ^ 64 : Int) < 2 ^ 64 := Int.emod_lt_of_pos x (by norm_num)
  omega

theorem streamVal_head (l : List Int) :
    streamVal l = toU64 (l.getD 0 0) + 2 ^ 64 * streamVal l.tail := by
  cases l with
  | nil => simp [streamVal, toU64]
  | cons w ws => rfl

theorem streamVal_tail_div (l : List Int) : streamVal l / 2 ^ 64 = streamVal l.tail := by
  rw [streamVal_head l, Nat.add_mul_div_left _ _ (Nat.two_pow_pos 64),
    Nat.div_eq_of_lt (toU64_lt _)]
  omega

theorem streamVal_drop (q : Nat) : ∀ l : List Int,
    streamVal l / 2 ^ (64 * q) = streamVal (l.drop q) := by
  induction q with
  | zero => intro l; simp
  | succ q ih =>
    intro l
    have h1 : 2 ^ (64 * (q + 1)) = 2 ^ 64 * 2 ^ (64 * q) := by
      rw [← pow_add]
      congr 1
      ring
    have h2 : l.tail.drop q = l.drop (q + 1) := by
      rw [← List.drop_one, List.drop_drop, Nat.add_comm]
    rw [h1, ← Nat.div_div_eq_div_mul, streamVal_tail_div, ih l.tail, h2]


theorem getD_drop (l : List Int) (q : Nat) : (l.drop q).getD 0 0 = l.getD q 0 := by
  induction q generalizing l with
  | zero => simp
  | succ q ih =>
    cases l with
    | nil => simp
    | cons w ws => simpa using ih ws

/-- Splitting off a power-of-two multiple under division. -/
theorem div_add_high (a B r k : Nat) (hr : r ≤ k) :
    (a + 2 ^ k * B) / 2 ^ r = a / 2 ^ r + 2 ^ (k - r) * B := by
  have h : 2 ^ k * B = 2 ^ r * (2 ^ (k - r) * B) := by
    rw [← mul_assoc, ← pow_add]
    congr 2
    omega
  rw [h, Nat.add_mul_div_left _ _ (Nat.two_pow_pos r)]

/-- A multiple of `2^k` vanishes modulo `2^m` when `m ≤ k`. -/
theorem mod_kill_high (A c m k : Nat) (h : m ≤ k) :
    (A + 2 ^ k * c) % 2 ^ m = A % 2 ^ m := by
  have hk : 2 ^ k * c = 2 ^ m * (2 ^ (k - m) * c) := by
    rw [← mul_assoc, ← pow_add]
    congr 2
    omega
  rw [hk, Nat.add_mul_mod_self_left]

/-- **C2.** Under the spanning layout, entry `i` is exactly the
`bitsPerEntry`-bit field of the packed bit-stream at absolute bit offset
`i * bitsPerEntry`: the same-word case extracts with one shift+mask, the
cross-word case ORs the two shifted halves, words being read as unsigned
64-bit values and missing trailing words as zero. -/
theorem claim2_spanning_extraction (words : List Int) (bitsPerEntry i : Nat)
    (h2 : 2 ≤ bitsPerEntry) (h64 : bitsPerEntry ≤ 64) :
    spanningEntry words bitsPerEntry i
      = streamVal words / 2 ^ (i * bitsPerEntry) % 2 ^ bitsPerEntry := by
  set s := i * bitsPerEntry with hs
  set q := s / 64 with hq
  set r := s % 64 with hr
  have hr64 : r < 64 := Nat.mod_lt _ (by norm_num)
  have hsqr : s = 64 * q + r := (Nat.div_add_mod s 64).symm
  set a := toU64 (words.getD q 0) with ha
  set b := toU64 (words.getD (q + 1) 0) with hb
  have haLT : a < 2 ^ 64 := toU64_lt _
  have hbLT : b < 2 ^ 64 := toU64_lt _
  -- bring the right-hand side to `streamVal (words.drop q) / 2^r % 2^bpe`
  have hRHS : streamVal words / 2 ^ s % 2 ^ bitsPerEntry
      = streamVal (words.drop q) / 2 ^ r % 2 ^ bitsPerEntry := by
    rw [hsqr, pow_add, ← Nat.div_div_eq_div_mul, streamVal_drop]
  -- decompose the dropped stream into its first two words and a rest
  set C := streamVal (words.drop (q + 2)) with hC
  have hdropsucc : (words.drop q).tail = words.drop (q + 1) := by
    rw [← List.drop_one, List.drop_drop]
  have hdropsucc2 : (words.drop (q + 1)).tail = words.drop (q + 2) := by
    rw [← List.drop_one, List.drop_drop]
  have hsplitA : streamVal (words.drop q) = a + 2 ^ 64 * (b + 2 ^ 64 * C) := by
    rw [streamVal_head (words.drop q), getD_drop, hdropsucc,
      streamVal_head (words.drop (q + 1)), getD_drop, hdropsucc2]
  -- the branch condition of the decoder
  have hendIdx : (s + bitsPerEntry - 1) / 64 = q + (r + bitsPerEntry - 1) / 64 := by
    have hdecomp : s + bitsPerEntry - 1 = (r + bitsPerEntry - 1) + 64 * q := by omega
    rw [hdecomp, Nat.add_mul_div_left _ _ (by norm_num), Nat.add_comm]
  by_cases hcase : r + bitsPerEntry ≤ 64
  · -- same-word extraction
    have hidx : s / 64 = (s + bitsPerEntry - 1) / 64 := by
      rw [hendIdx, Nat.div_eq_of_lt (show r + bitsPerEntry - 1 < 64 by omega)]
      omega
    simp only [spanningEntry, ← hs, ← hq, ← hr, if_pos hidx, ← ha]
    rw [Nat.shiftRight_eq_div_pow, Nat.and_pow_two_sub_one_eq_mod, hRHS, hsplitA,
      div_add_high a _ r 64 (by omega), mod_kill_high _ _ _ _ (by omega)]
  · -- cross-word extraction
    have hidx : ¬ (s / 64 = (s + bitsPerEntry - 1) / 64) := by
      rw [hendIdx]
      have h1 : 1 ≤ (r + bitsPerEntry - 1) / 64 := by
        have : 64 ≤ r + bitsPerEntry - 1 := by omega
        exact (Nat.one_le_div_iff (by norm_num)).mpr this
      omega
    simp only [spanningEntry, ← hs, ← hq, ← hr, if_neg hidx, ← ha]
    have hendeq : (s + bitsPerEntry - 1) / 64 = q + 1 := by
      rw [hendIdx]
      have hlt : (r + bitsPerEntry - 1) / 64 = 1 := by
        have hge : 64 ≤ r + bitsPerEntry - 1 := by omega
        have hlt2 : r + bitsPerEntry - 1 < 128 := by omega
        omega
      omega
    rw [hendeq, ← hb]
    set k := 64 - r with hk
    set t := bitsPerEntry - k with ht
    have hkt : k + t = bitsPerEntry := by omega
    have hx : a >>> r < 2 ^ k := by
      rw [Nat.shiftRight_eq_div_pow]
      apply Nat.div_lt_of_lt_mul
      calc a < 2 ^ 64 := haLT
        _ ≤ 2 ^ r * 2 ^ k := by rw [← pow_add]; apply Nat.pow_le_pow_right <;> omega
    -- left-hand side: mask, then OR of disjoint parts
    have hxmask : (a >>> r) &&& 2 ^ bitsPerEntry - 1 = a >>> r := by
      apply Nat.and_pow_two_sub_one_of_lt_two_pow
      calc a >>> r < 2 ^ k := hx
        _ ≤ 2 ^ bitsPerEntry := by apply Nat.pow_le_pow_right <;> omega
    have hymask : (b <<< k) &&& 2 ^ bitsPerEntry - 1 = 2 ^ k * (b % 2 ^ t) := by
      rw [Nat.shiftLeft_eq, Nat.and_pow_two_sub_one_eq_mod, mul_comm b (2 ^ k), ← hkt,
        pow_add, Nat.mul_mod_mul_left]
    rw [hxmask, hymask, Nat.lor_comm, ← Nat.mul_add_lt_is_or hx (b % 2 ^ t)]
    -- right-hand side: divide out the start offset, kill the high words
    rw [hRHS, hsplitA, div_add_high a _ r 64 (by omega)]
    have hsplit2 : 2 ^ (64 - r) * (b + 2 ^ 64 * C)
        = 2 ^ k * b + 2 ^ (128 - r) * C := by
      rw [Nat.mul_add, ← hk]
      congr 1
      rw [← mul_assoc, ← pow_add]
      congr 2
      omega
    rw [hsplit2, ← Nat.add_assoc, mod_kill_high _ _ _ _ (by omega)]
    -- split `b` into its used low bits and discarded high bits
    have hxdiv : a >>> r = a / 2 ^ r := Nat.shiftRight_eq_div_pow a r
    have hxk : a / 2 ^ r < 2 ^ k := hxdiv ▸ hx
    have hbsplit : a / 2 ^ r + 2 ^ k * b
        = (a / 2 ^ r + 2 ^ k * (b % 2 ^ t)) + 2 ^ bitsPerEntry * (b / 2 ^ t) := by
      have hmd : b = b % 2 ^ t + 2 ^ t * (b / 2 ^ t) := (Nat.mod_add_div b (2 ^ t)).symm
      calc a / 2 ^ r + 2 ^ k * b
          = a / 2 ^ r + 2 ^ k * (b % 2 ^ t + 2 ^ t * (b / 2 ^ t)) := by rw [← hmd]
        _ = (a / 2 ^ r + 2 ^ k * (b % 2 ^ t)) + (2 ^ k * 2 ^ t) * (b / 2 ^ t) := by ring
        _ = (a / 2 ^ r + 2 ^ k * (b % 2 ^ t)) + 2 ^ bitsPerEntry * (b / 2 ^ t) := by
            rw [← pow_add, hkt]
    have hAlt : a / 2 ^ r + 2 ^ k * (b % 2 ^ t) < 2 ^ bitsPerEntry := by
      calc a / 2 ^ r + 2 ^ k * (b % 2 ^ t)
          < 2 ^ k + 2 ^ k * (b % 2 ^ t) := by omega
        _ ≤ 2 ^ k + 2 ^ k * (2 ^ t - 1) := by
            have hmt : b % 2 ^ t < 2 ^ t := Nat.mod_lt _ (Nat.two_pow_pos t)
            have h1 : b % 2 ^ t ≤ 2 ^ t - 1 := by omega
            have := Nat.mul_le_mul_left (2 ^ k) h1
            omega
        _ ≤ 2 ^ k * 2 ^ t := by
            have h1 : 1 ≤ 2 ^ t := Nat.one_le_two_pow
            have h2 : 2 ^ k * (2 ^ t - 1) = 2 ^ k * 2 ^ t - 2 ^ k := by
              rw [Nat.mul_sub]
              omega
            have h3 : 2 ^ k ≤ 2 ^ k * 2 ^ t := Nat.le_mul_of_pos_right _ (Nat.two_pow_pos t)
            omega
        _ = 2 ^ bitsPerEntry := by rw [← pow_add, hkt]
    rw [hxdiv, hbsplit, Nat.add_mul_mod_self_left, Nat.mod_eq_of_lt hAlt]
    omega

/-- Witness for C2 at a concrete cross-word configuration
(`bitsPerEntry = 5`, entry 13 spans words 1 and 2). -/
theorem claim2_witness :
    spanningEntry [(77 : Int), -123456789, 3] 5 13
      = streamVal [(77 : Int), -123456789, 3] / 2 ^ (13 * 5) % 2 ^ 5 :=
  claim2_spanning_extraction [(77 : Int), -123456789, 3] 5 13 (by norm_num) (by norm_num)

-- ─── counting over the flat array vs counting over cells ───

theorem countP_eq_card_range (l : List Int) (p : Int → Bool) :
    l.countP p = ((Finset.range l.length).filter (fun i => p (l.getD i 0))).card := by
  induction l with
  | nil => simp
  | cons a l ih =>
    rw [List.countP_cons, List.length_cons, Finset.card_filter, Finset.sum_range_succ',
      ← Finset.card_filter]
    simp only [List.getD_cons_succ, List.getD_cons_zero]
    rw [← ih]

theorem triple_lt (W H L x y z : Nat) (hx : x < W) (hy : y < H) (hz : z < L) :
    x + z * W + y * (W * L) < W * H * L := by
  have e1 : (z + 1) * W = z * W + W := by ring
  have h2 : (z + 1) * W ≤ L * W := Nat.mul_le_mul_right W (by omega)
  have e3 : y * (W * L) + L * W = (y + 1) * (W * L) := by ring
  have h4 : (y + 1) * (W * L) ≤ H * (W * L) := Nat.mul_le_mul_right _ (by omega)
  have e5 : H * (W * L) = W * H * L := by ring
  omega

theorem triple_recon (W L i : Nat) :
    i % W + i / W % L * W + i / (W * L) * (W * L) = i := by
  have e1 : W * (i / W) + i % W = i := Nat.div_add_mod i W
  have e2 : L * (i / W / L) + i / W % L = i / W := Nat.div_add_mod (i / W) L
  have e3 : i / W / L = i / (W * L) := Nat.div_div_eq_div_mul i W L
  calc i % W + i / W % L * W + i / (W * L) * (W * L)
      = i % W + i / W % L * W + (i / W / L) * (W * L) := by rw [e3]
    _ = W * (L * (i / W / L) + i / W % L) + i % W := by ring
    _ = W * (i / W) + i % W := by rw [e2]
    _ = i := e1

/-- Cells of the box, visited through the X-fastest linearization
`x + z*W + y*W*L`, are in bijection with flat indices below `W*H*L`. -/
theorem card_filter_triple (W H L : Nat) (p : Nat → Bool) :
    ((Finset.range (W * H * L)).filter (fun i => p i)).card
      = ((Finset.range W ×ˢ Finset.range H ×ˢ Finset.range L).filter
          (fun c => p (c.1 + c.2.2 * W + c.2.1 * (W * L)))).card := by
  apply Finset.card_bij'
    (i := fun i _ => ((i % W : Nat), ((i / (W * L) : Nat), (i / W % L : Nat))))
    (j := fun c _ => c.1 + c.2.2 * W + c.2.1 * (W * L))
  · intro i hi
    simp only [Finset.mem_filter, Finset.mem_range] at hi
    obtain ⟨hilt, hip⟩ := hi
    have hW : 0 < W := by
      rcases Nat.eq_zero_or_pos W with h0 | h0
      · rw [h0] at hilt; simp at hilt
      · exact h0
    have hL : 0 < L := by
      rcases Nat.eq_zero_or_pos L with h0 | h0
      · rw [h0] at hilt; simp at hilt
      · exact h0
    have hxm : i % W < W := Nat.mod_lt _ hW
    have hym : i / (W * L) < H := by
      apply Nat.div_lt_of_lt_mul
      have e : W * L * H = W * H * L := by ring
      omega
    have hzm : i / W % L < L := Nat.mod_lt _ hL
    simp only [Finset.mem_filter, Finset.mem_product, Finset.mem_range]
    exact ⟨⟨hxm, hym, hzm⟩, by rw [triple_recon W L i]; exact hip⟩
  · intro c hc
    simp only [Finset.mem_filter, Finset.mem_product, Finset.mem_range] at hc
    obtain ⟨⟨hx, hy, hz⟩, hp⟩ := hc
    simp only [Finset.mem_filter, Finset.mem_range]
    exact ⟨triple_lt W H L _ _ _ hx hy hz, hp⟩
  · intro i hi
    exact triple_recon W L i
  · intro c hc
    simp only [Finset.mem_filter, Finset.mem_product, Finset.mem_range] at hc
    obtain ⟨⟨hx, hy, hz⟩, _⟩ := hc
    have hW : 0 < W := by omega
    have hL : 0 < L := by omega
    obtain ⟨x, yz⟩ := c
    obtain ⟨y, z⟩ := yz
    simp only at hx hy hz ⊢
    have hform : x + z * W + y * (W * L) = x + W * (z + L * y) := by ring
    have hmod : (x + z * W + y * (W * L)) % W = x := by
      rw [hform, Nat.add_mul_mod_self_left, Nat.mod_eq_of_lt hx]
    have hdiv : (x + z * W + y * (W * L)) / W = z + L * y := by
      rw [hform, Nat.add_mul_div_left _ _ hW, Nat.div_eq_of_lt hx]
      omega
    have hdivWL : (x + z * W + y * (W * L)) / (W * L) = y := by
      rw [← Nat.div_div_eq_div_mul, hdiv, Nat.add_mul_div_left _ _ hL,
        Nat.div_eq_of_lt hz]
      omega
    have hdivmod : (x + z * W + y * (W * L)) / W % L = z := by
      rw [hdiv, Nat.add_mul_mod_self_left, Nat.mod_eq_of_lt hz]
    rw [hmod, hdivWL, hdivmod]

theorem toNat_mul3 (a b c : Int) (ha : 0 ≤ a) (hb : 0 ≤ b) (hc : 0 ≤ c) :
    (a * b * c).toNat = a.toNat * b.toNat * c.toNat := by
  obtain ⟨a', rfl⟩ := Int.eq_ofNat_of_zero_le ha
  obtain ⟨b', rfl⟩ := Int.eq_ofNat_of_zero_le hb
  obtain ⟨c', rfl⟩ := Int.eq_ofNat_of_zero_le hc
  rw [← Int.natCast_mul, ← Int.natCast_mul, Int.toNat_natCast, Int.toNat_natCast,
    Int.toNat_natCast, Int.toNat_natCast]

theorem decodePacked_length (words : List Int) (paletteSize totalBlocks : Nat) :
    (decodePacked words paletteSize totalBlocks).length = totalBlocks := by
  simp only [decodePacked]
  split <;> simp

-- ─── adapter inversion lemmas ───

/-- What a successful `parseSchem` run must look like. -/
theorem parseSchem_ok_inv (t : SchemTree) (g : Grid) (h : parseSchem t = .ok g) :
    ∃ pal bytes blockIndices,
      t.palette = some pal ∧ t.blockData = some bytes ∧
      ¬ t.width * t.height * t.length < 0 ∧
      decodeVarintArray bytes (t.width * t.height * t.length).toNat = .ok blockIndices ∧
      g = { width := t.width, height := t.height, length := t.length,
            name := resolveName t.metadataName "Unnamed",
            paletteList := buildSchemPalette pal,
            blockIndices := blockIndices,
            totalNonAir :=
              blockIndices.countP (fun v => ! schemAirIdx (buildSchemPalette pal) v) } := by
  unfold parseSchem at h
  match hpal : t.palette with
  | none => rw [hpal] at h; exact absurd h (by simp)
  | some pal =>
    rw [hpal] at h
    match hdata : t.blockData with
    | none => rw [hdata] at h; exact absurd h (by simp)
    | some bytes =>
      rw [hdata] at h
      simp only at h
      split at h
      · exact absurd h (by simp)
      · next hneg =>
        match hdec : decodeVarintArray bytes (t.width * t.height * t.length).toNat with
        | .error e => rw [hdec] at h; exact absurd h (by simp)
        | .ok blockIndices =>
          rw [hdec] at h
          simp only [Except.ok.injEq] at h
          exact ⟨pal, bytes, blockIndices, rfl, rfl, hneg, hdec, h.symm⟩

/-- What a successful `parseLitematic` run must look like. -/
theorem parseLitematic_ok_inv (t : LitTree) (g : Grid) (h : parseLitematic t = .ok g) :
    ∃ regionName region rs pal words,
      t.regions = some ((regionName, region) :: rs) ∧
      region.blockStatePalette = some pal ∧ ¬ pal.length = 0 ∧
      region.blockStates = some words ∧
      g = { width := (region.sizeX.natAbs : Int), height := (region.sizeY.natAbs : Int),
            length := (region.sizeZ.natAbs : Int),
            name := resolveName t.metadataName
              (if regionName = "" then "Unnamed" else regionName),
            paletteList := (pal.map descOf).map some,
            blockIndices := decodePacked words pal.length
              (region.sizeX.natAbs * region.sizeY.natAbs * region.sizeZ.natAbs),
            totalNonAir :=
              (decodePacked words pal.length
                (region.sizeX.natAbs * region.sizeY.natAbs * region.sizeZ.natAbs)).countP
                (fun v => ! litAirIdx (pal.map descOf) v) } := by
  unfold parseLitematic at h
  match hreg : t.regions with
  | none => rw [hreg] at h; exact absurd h (by simp)
  | some [] => rw [hreg] at h; exact absurd h (by simp)
  | some ((regionName, region) :: rs) =>
    rw [hreg] at h
    simp only at h
    match hpal : region.blockStatePalette with
    | none => rw [hpal] at h; exact absurd h (by simp)
    | some pal =>
      rw [hpal] at h
      simp only at h
      split at h
      · exact absurd h (by simp)
      · next hlen =>
        match hws : region.blockStates with
        | none => rw [hws] at h; exact absurd h (by simp)
        | some words =>
          rw [hws] at h
          simp only [Except.ok.injEq] at h
          exact ⟨regionName, region, rs, pal, words, rfl, hpal, hlen, hws, h.symm⟩

-- ─── C3 : totalNonAir vs the centralized isAir ───

/-- Number of in-range cells whose block (as returned by a `getBlock`
function) is NOT air according to the centralized `isAir` predicate. -/
def nonAirCellCount (getB : Int → Int → Int → Option String)
    (width height length : Int) : Nat :=
  ((Finset.range width.toNat ×ˢ Finset.range height.toNat ×ˢ Finset.range length.toNat).filter
    (fun c => ! isAir (getB (c.1 : Int) (c.2.1 : Int) (c.2.2 : Int)))).card

/-- Grid produced by `parseSchem` for the 1×1×1 palette `{"air": 0}`. -/
def gBareAir : Grid :=
  { width := 1, height := 1, length := 1, name := "Unnamed",
    paletteList := [some "air"], blockIndices := [0], totalNonAir := 1 }

/-- **C3, counterexample.**  The dense-varint adapter classifies air by
exact string comparison against the three namespaced ids only, so a bare
`air` palette entry is counted as NON-air (`totalNonAir = 1`) although
the centralized `isAir` classifies every cell of the grid as air
(`nonAirCellCount = 0`).  This refutes the claim that both decoders'
non-air counting agrees with `isAir`. -/
theorem claim3_counterexample :
    parseSchem (SchemTree.mk 1 1 1 none (some [("air", 0)]) (some [0])) = .ok gBareAir
    ∧ gBareAir.totalNonAir = 1
    ∧ nonAirCellCount (schemGetBlock gBareAir) 1 1 1 = 0 := by
  refine ⟨by rfl, rfl, by decide⟩

/-- **C3, amended.**  For every grid produced by either adapter (with
non-negative stored dimensions in the dense-varint case), `totalNonAir`
equals the number of cells `(x, y, z)` whose flat palette index fails the
adapter's own air classification (`schemAirIdx` for the dense-varint
adapter — exact case-sensitive match on the three namespaced ids or an
unmapped/empty slot; `litAirIdx` for the bit-packed adapter —
lowercased, property-stripped base match on the same three ids; neither
includes bare `air`, and out-of-range indices count as non-air). -/
theorem claim3_amended :
    (∀ (t : SchemTree) (g : Grid), parseSchem t = .ok g →
      0 ≤ g.width → 0 ≤ g.height → 0 ≤ g.length →
      g.totalNonAir =
        ((Finset.range g.width.toNat ×ˢ Finset.range g.height.toNat ×ˢ Finset.range g.length.toNat).filter
          (fun c => ! schemAirIdx g.paletteList
            (g.blockIndices.getD
              (c.1 + c.2.2 * g.width.toNat + c.2.1 * (g.width.toNat * g.length.toNat)) 0))).card)
    ∧ (∀ (t : LitTree) (g : Grid), parseLitematic t = .ok g →
      g.totalNonAir =
        ((Finset.range g.width.toNat ×ˢ Finset.range g.height.toNat ×ˢ Finset.range g.length.toNat).filter
          (fun c => ! litAirIdx (g.paletteList.filterMap id)
            (g.blockIndices.getD
              (c.2.1 * (g.length.toNat * g.width.toNat) + c.2.2 * g.width.toNat + c.1) 0))).card) := by
  constructor
  · intro t g hok hw hh hl
    obtain ⟨pal, bytes, bi, hpal, hdata, hneg, hdec, hg⟩ := parseSchem_ok_inv t g hok
    subst hg
    simp only at hw hh hl ⊢
    have hlen : bi.length = t.width.toNat * t.height.toNat * t.length.toNat := by
      have h1 := decodeVarintAux_length _ _ _ hdec
      rw [h1, toNat_mul3 _ _ _ hw hh hl]
    rw [countP_eq_card_range bi (fun v => ! schemAirIdx (buildSchemPalette pal) v), hlen,
      card_filter_triple t.width.toNat t.height.toNat t.length.toNat
        (fun i => ! schemAirIdx (buildSchemPalette pal) (bi.getD i 0))]
  · intro t g hok
    obtain ⟨regionName, region, rs, pal, words, hreg, hpal, hlen0, hws, hg⟩ :=
      parseLitematic_ok_inv t g hok
    subst hg
    simp only [Int.toNat_natCast]
    have hfm : ((pal.map descOf).map some).filterMap id = pal.map descOf := by simp
    rw [hfm]
    have hidx : ∀ c : Nat × Nat × Nat,
        c.2.1 * (region.sizeZ.natAbs * region.sizeX.natAbs) + c.2.2 * region.sizeX.natAbs + c.1
          = c.1 + c.2.2 * region.sizeX.natAbs
              + c.2.1 * (region.sizeX.natAbs * region.sizeZ.natAbs) := by
      intro c
      ring
    simp only [hidx]
    have hlen : (decodePacked words pal.length
        (region.sizeX.natAbs * region.sizeY.natAbs * region.sizeZ.natAbs)).length
        = region.sizeX.natAbs * region.sizeY.natAbs * region.sizeZ.natAbs :=
      decodePacked_length _ _ _
    rw [countP_eq_card_range _ (fun v => ! litAirIdx (pal.map descOf) v), hlen,
      card_filter_triple region.sizeX.natAbs region.sizeY.natAbs region.sizeZ.natAbs
        (fun i => ! litAirIdx (pal.map descOf)
          ((decodePacked words pal.length
            (region.sizeX.natAbs * region.sizeY.natAbs * region.sizeZ.natAbs)).getD i 0))]

/-- Grid produced by `parseSchem` for a 1×1×1 stone schematic. -/
def gStone : Grid :=
  { width := 1, height := 1, length := 1, name := "Unnamed",
    paletteList := [some "minecraft:stone"], blockIndices := [0], totalNonAir := 1 }

/-- Grid produced by `parseLitematic` for a 1×1×1 stone region. -/
def gLitStone : Grid :=
  { width := 1, height := 1, length := 1, name := "r",
    paletteList := [some "minecraft:stone"], blockIndices := [0], totalNonAir := 1 }

/-- Witness for C3 (amended), both adapters applied at 1×1×1 stone
inputs. -/
theorem claim3_amended_witness :
    (parseSchem (SchemTree.mk 1 1 1 none (some [("minecraft:stone", 0)]) (some [0]))
        = .ok gStone
      ∧ gStone.totalNonAir =
        ((Finset.range gStone.width.toNat ×ˢ Finset.range gStone.height.toNat ×ˢ Finset.range gStone.length.toNat).filter
          (fun c => ! schemAirIdx gStone.paletteList
            (gStone.blockIndices.getD
              (c.1 + c.2.2 * gStone.width.toNat + c.2.1 * (gStone.width.toNat * gStone.length.toNat)) 0))).card)
    ∧ (parseLitematic (LitTree.mk none
          (some [("r", LitRegion.mk 1 1 1 (some [PaletteEntry.mk "minecraft:stone" none]) (some [0]))]))
        = .ok gLitStone
      ∧ gLitStone.totalNonAir =
        ((Finset.range gLitStone.width.toNat ×ˢ Finset.range gLitStone.height.toNat ×ˢ Finset.range gLitStone.length.toNat).filter
          (fun c => ! litAirIdx (gLitStone.paletteList.filterMap id)
            (gLitStone.blockIndices.getD
              (c.2.1 * (gLitStone.length.toNat * gLitStone.width.toNat) + c.2.2 * gLitStone.width.toNat + c.1) 0))).card) :=
  ⟨⟨by rfl,
    claim3_amended.1 (SchemTree.mk 1 1 1 none (some [("minecraft:stone", 0)]) (some [0]))
      gStone (by rfl) (by decide) (by decide) (by decide)⟩,
   ⟨by rfl,
    claim3_amended.2 (LitTree.mk none
        (some [("r", LitRegion.mk 1 1 1 (some [PaletteEntry.mk "minecraft:stone" none]) (some [0]))]))
      gLitStone (by rfl)⟩⟩

-- ─── C9 : unresolvable palette indices ───

/-- Grid produced by `parseSchem` when the decoded index 5 points past the
one-entry palette. -/
def gBeyond : Grid :=
  { width := 1, height := 1, length := 1, name := "Unnamed",
    paletteList := [some "minecraft:stone"], blockIndices := [5], totalNonAir := 1 }

/-- **C9, counterexample.**  A decoded palette index beyond the palette
array makes `getBlock` return the `null` sentinel, but the cell is NOT
excluded from `totalNonAir`: the `airIndices` set only contains in-range
slots, so the out-of-range index counts as non-air (`totalNonAir = 1`,
not `0`).  This refutes the claim that such cells are counted as air. -/
theorem claim9_counterexample :
    parseSchem (SchemTree.mk 1 1 1 none (some [("minecraft:stone", 0)]) (some [5])) = .ok gBeyond
    ∧ schemGetBlock gBeyond 0 0 0 = none
    ∧ gBeyond.totalNonAir = 1 := by
  refine ⟨by rfl, by rfl, rfl⟩

/-- **C9, amended.**  For every grid built by the dense-varint adapter,
`getBlock` is total: at an in-range coordinate whose decoded palette
index is negative, beyond the palette array, or an unmapped (`null`)
slot, it returns the `null` sentinel rather than failing.
`totalNonAir` counts exactly the indices outside the adapter's air set
(`schemAirIdx`): an unmapped in-range slot IS in that set (excluded from
`totalNonAir`), while a negative or beyond-palette index is NOT
(counted as non-air despite `getBlock` returning `null`). -/
theorem claim9_amended (t : SchemTree) (g : Grid) (hok : parseSchem t = .ok g)
    (x y z : Int) (hx0 : 0 ≤ x) (hx1 : x < g.width) (hy0 : 0 ≤ y) (hy1 : y < g.height)
    (hz0 : 0 ≤ z) (hz1 : z < g.length) (v : Int)
    (hv : g.blockIndices.get? (schemIndex g.width g.length x y z).toNat = some v) :
    g.totalNonAir = g.blockIndices.countP (fun w => ! schemAirIdx g.paletteList w)
    ∧ ((v < 0 ∨ (g.paletteList.length : Int) ≤ v) →
        schemGetBlock g x y z = none ∧ schemAirIdx g.paletteList v = false)
    ∧ (0 ≤ v → v.toNat < g.paletteList.length → g.paletteList.getD v.toNat none = none →
        schemGetBlock g x y z = none ∧ schemAirIdx g.paletteList v = true) := by
  refine ⟨?_, ?_, ?_⟩
  · obtain ⟨pal, bytes, bi, _, _, _, _, hg⟩ := parseSchem_ok_inv t g hok
    subst hg
    rfl
  · intro hout
    have hgb : schemGetBlock g x y z = lookupDesc g.paletteList v := by
      unfold schemGetBlock
      rw [if_neg (by omega), hv]
    constructor
    · rw [hgb]
      unfold lookupDesc
      rcases hout with hneg | hbig
      · rw [if_pos hneg]
      · rw [if_neg (by omega)]
        have hgetD : g.paletteList.getD v.toNat none = none := by
          apply List.getD_eq_default
          omega
        rw [hgetD]
    · unfold schemAirIdx
      rcases hout with hneg | hbig
      · rw [if_pos hneg]
      · rw [if_neg (by omega)]
        have hnone : g.paletteList.get? v.toNat = none := by
          rw [List.get?_eq_none]
          omega
        rw [hnone]
  · intro hv0 hvlen hslot
    have hgb : schemGetBlock g x y z = lookupDesc g.paletteList v := by
      unfold schemGetBlock
      rw [if_neg (by omega), hv]
    constructor
    · rw [hgb]
      unfold lookupDesc
      rw [if_neg (by omega), hslot]
    · unfold schemAirIdx
      rw [if_neg (by omega)]
      have hsome : g.paletteList.get? v.toNat = some none := by
        rw [List.get?_eq_getElem?, List.getElem?_eq_getElem hvlen]
        have := List.getD_eq_getElem g.paletteList none hvlen
        rw [← this, hslot]
      rw [hsome]
      rfl

/-- Witness for C9 (amended) at the concrete beyond-palette grid. -/
theorem claim9_amended_witness :
    gBeyond.totalNonAir = gBeyond.blockIndices.countP (fun w => ! schemAirIdx gBeyond.paletteList w)
    ∧ (((5 : Int) < 0 ∨ (gBeyond.paletteList.length : Int) ≤ 5) →
        schemGetBlock gBeyond 0 0 0 = none ∧ schemAirIdx gBeyond.paletteList 5 = false)
    ∧ ((0 : Int) ≤ 5 → (5 : Int).toNat < gBeyond.paletteList.length →
        gBeyond.paletteList.getD (5 : Int).toNat none = none →
        schemGetBlock gBeyond 0 0 0 = none ∧ schemAirIdx gBeyond.paletteList 5 = true) :=
  claim9_amended (SchemTree.mk 1 1 1 none (some [("minecraft:stone", 0)]) (some [5])) gBeyond
    (by rfl) 0 0 0 (by decide) (by decide) (by decide) (by decide) (by decide) (by decide)
    5 (by rfl)

-- ─── C8 : no dimension validation ───

/-- Grid produced by `parseSchem` for a zero-width schematic. -/
def gZeroWidth : Grid :=
  { width := 0, height := 3, length := 2, name := "Unnamed",
    paletteList := [some "minecraft:stone"], blockIndices := [], totalNonAir := 0 }

/-- **C8, counterexample.**  A tree with the non-positive dimension
`Width = 0` does NOT make the dense-varint adapter fail with a
`MalformedDimensions` error: the decode succeeds and returns an empty
grid.  No dimension validation exists in either adapter. -/
theorem claim8_counterexample :
    parseSchem (SchemTree.mk 0 3 2 none (some [("minecraft:stone", 0)]) (some [])) = .ok gZeroWidth := by
  rfl

/-- **C8, amended.**  Neither adapter validates its dimensions and no
`MalformedDimensions` error exists: the dense-varint adapter succeeds on
a zero dimension (empty product → empty grid, whatever the byte buffer),
and the bit-packed adapter silently replaces negative `Size` components
by their absolute values, so any successfully parsed litematic grid has
`|Size|` dimensions rather than a dimension failure. -/
theorem claim8_amended :
    (∀ (t : SchemTree) (pal : List (String × Nat)) (bytes : List Nat),
      t.palette = some pal → t.blockData = some bytes → t.width = 0 →
      ∃ g, parseSchem t = .ok g ∧ g.totalNonAir = 0)
    ∧ (∀ (t : LitTree) (regionName : String) (region : LitRegion)
        (rs : List (String × LitRegion)) (g : Grid),
        t.regions = some ((regionName, region) :: rs) → parseLitematic t = .ok g →
        g.width = (region.sizeX.natAbs : Int) ∧ g.height = (region.sizeY.natAbs : Int)
          ∧ g.length = (region.sizeZ.natAbs : Int)) := by
  constructor
  · intro t pal bytes hpal hdata hw
    simp only [parseSchem, hpal, hdata, hw]
    norm_num
    exact ⟨_, rfl, rfl⟩
  · intro t regionName region rs g hreg hok
    obtain ⟨rn, region', rs', pal, words, hreg', _, _, _, hg⟩ := parseLitematic_ok_inv t g hok
    rw [hreg] at hreg'
    have hr : region' = region := by
      simp only [Option.some.injEq, List.cons.injEq, Prod.mk.injEq] at hreg'
      exact hreg'.1.2.symm
    subst hr
    subst hg
    exact ⟨rfl, rfl, rfl⟩

/-- Grid produced by `parseLitematic` for a region with `Size`
`(-2, 3, -1)`: the dimensions are the absolute values. -/
def gNegSize : Grid :=
  { width := 2, height := 3, length := 1, name := "r",
    paletteList := [some "minecraft:stone"],
    blockIndices := [0, 0, 0, 0, 0, 0], totalNonAir := 6 }

/-- Witness for C8 (amended): a zero-width schematic succeeds, and a
litematic region with negative sizes parses to absolute dimensions. -/
theorem claim8_amended_witness :
    (∃ g, parseSchem (SchemTree.mk 0 3 2 none (some [("minecraft:stone", 0)]) (some []))
        = .ok g ∧ g.totalNonAir = 0)
    ∧ ((gNegSize : Grid).width = ((-2 : Int).natAbs : Int)
        ∧ (gNegSize : Grid).height = ((3 : Int).natAbs : Int)
        ∧ (gNegSize : Grid).length = ((-1 : Int).natAbs : Int)) :=
  ⟨claim8_amended.1 (SchemTree.mk 0 3 2 none (some [("minecraft:stone", 0)]) (some []))
      [("minecraft:stone", 0)] [] rfl rfl rfl,
   claim8_amended.2 (LitTree.mk none
      (some [("r", LitRegion.mk (-2) 3 (-1)
        (some [PaletteEntry.mk "minecraft:stone" none]) (some [0, 0]))]))
      "r" (LitRegion.mk (-2) 3 (-1) (some [PaletteEntry.mk "minecraft:stone" none]) (some [0, 0]))
      [] gNegSize rfl (by rfl)⟩

-- ─── C4 : BFS correctness lemmas ───

/-- Sharper case description of `visitNeighbor`: when the state is left
unchanged, an admissible neighbor must already be visited. -/
theorem visitNeighbor_cases2 (gb : Int → Int → Option String) (width length : Int)
    (baseId : String) (st : BfsState) (n : Int × Int) :
    (visitNeighbor gb width length baseId st n = st
      ∧ (ffStepTarget gb width length baseId n → n ∈ st.cells))
    ∨ (n ∉ st.cells ∧ ffStepTarget gb width length baseId n ∧
        visitNeighbor gb width length baseId st n =
          { cells := insert n st.cells
            queue := st.queue ++ [n]
            minX := if n.1 < st.minX then n.1 else st.minX
            maxX := if st.maxX < n.1 then n.1 else st.maxX
            minZ := if n.2 < st.minZ then n.2 else st.minZ
            maxZ := if st.maxZ < n.2 then n.2 else st.maxZ }) := by
  unfold visitNeighbor ffStepTarget
  by_cases h1 : n ∈ st.cells
  · exact Or.inl ⟨by simp [h1], fun _ => h1⟩
  · by_cases h2 : n.1 < 0 ∨ width ≤ n.1 ∨ n.2 < 0 ∨ length ≤ n.2
    · exact Or.inl ⟨by simp [h1, h2], fun hT => absurd h2 hT.1⟩
    · by_cases h3 : getBaseBlockId (gb n.1 n.2) = some baseId
      · exact Or.inr ⟨h1, ⟨h2, h3⟩, by simp [h1, h2, h3]⟩
      · exact Or.inl ⟨by simp [h1, h2, h3], fun hT => absurd hT.2 h3⟩

/-- Main description of one pass over a neighbor list: the queue gains
exactly the newly admitted cells, the visited set gains exactly those
cells, and every admissible listed neighbor ends up visited. -/
theorem visitFold_main (gb : Int → Int → Option String) (width length : Int)
    (baseId : String) :
    ∀ (ns : List (Int × Int)) (st : BfsState),
      ∃ added : List (Int × Int),
        (List.foldl (visitNeighbor gb width length baseId) st ns).queue
            = st.queue ++ added
        ∧ (∀ p ∈ added, p ∈ ns ∧ ffStepTarget gb width length baseId p)
        ∧ (∀ p, p ∈ (List.foldl (visitNeighbor gb width length baseId) st ns).cells
            ↔ p ∈ st.cells ∨ p ∈ added)
        ∧ (∀ n ∈ ns, ffStepTarget gb width length baseId n →
            n ∈ (List.foldl (visitNeighbor gb width length baseId) st ns).cells) := by
  intro ns
  induction ns with
  | nil =>
    intro st
    exact ⟨[], by simp, by simp, fun p => by simp, by simp⟩
  | cons n ns ih =>
    intro st
    rcases visitNeighbor_cases2 gb width length baseId st n with ⟨heq, himp⟩ | ⟨hnm, htgt, heq⟩
    · obtain ⟨added, hq, hprops, hiff, hcompl⟩ := ih st
      rw [List.foldl_cons, heq]
      refine ⟨added, hq, ?_, hiff, ?_⟩
      · intro p hp
        exact ⟨List.mem_cons_of_mem _ (hprops p hp).1, (hprops p hp).2⟩
      · intro n' hn' htgt'
        rcases List.mem_cons.mp hn' with rfl | hmem
        · exact (hiff n').mpr (Or.inl (himp htgt'))
        · exact hcompl n' hmem htgt'
    · obtain ⟨added, hq, hprops, hiff, hcompl⟩ := ih
        { cells := insert n st.cells
          queue := st.queue ++ [n]
          minX := if n.1 < st.minX then n.1 else st.minX
          maxX := if st.maxX < n.1 then n.1 else st.maxX
          minZ := if n.2 < st.minZ then n.2 else st.minZ
          maxZ := if st.maxZ < n.2 then n.2 else st.maxZ }
      rw [List.foldl_cons, heq]
      refine ⟨n :: added, ?_, ?_, ?_, ?_⟩
      · rw [hq]
        simp
      · intro p hp
        rcases List.mem_cons.mp hp with rfl | hmem
        · exact ⟨List.mem_cons_self _ _, htgt⟩
        · exact ⟨List.mem_cons_of_mem _ (hprops p hmem).1, (hprops p hmem).2⟩
      · intro p
        rw [hiff p]
        simp only [Finset.mem_insert, List.mem_cons]
        tauto
      · intro n' hn' htgt'
        rcases List.mem_cons.mp hn' with rfl | hmem
        · exact (hiff n').mpr (Or.inl (Finset.mem_insert_self _ _))
        · exact hcompl n' hmem htgt'

/-- The BFS loop ends with an empty worklist. -/
theorem bfsLoop_queue_nil (gb : Int → Int → Option String) (width length : Int)
    (baseId : String) (S : Finset (Int × Int))
    (hbox : ∀ p : Int × Int, ¬(p.1 < 0 ∨ width ≤ p.1 ∨ p.2 < 0 ∨ length ≤ p.2) → p ∈ S)
    (st : BfsState) (hsub : st.cells ⊆ S) :
    (bfsLoop gb width length baseId S hbox st hsub).queue = [] := by
  induction st, hsub using bfsLoop.induct gb width length baseId S hbox with
  | case1 st hsub hq =>
    rw [bfsLoop, hq]
    exact hq
  | case2 st hsub c rest hq ih =>
    rw [bfsLoop, hq]
    exact ih

/-- The BFS loop only grows the visited set. -/
theorem bfsLoop_mono (gb : Int → Int → Option String) (width length : Int)
    (baseId : String) (S : Finset (Int × Int))
    (hbox : ∀ p : Int × Int, ¬(p.1 < 0 ∨ width ≤ p.1 ∨ p.2 < 0 ∨ length ≤ p.2) → p ∈ S)
    (st : BfsState) (hsub : st.cells ⊆ S) :
    st.cells ⊆ (bfsLoop gb width length baseId S hbox st hsub).cells := by
  induction st, hsub using bfsLoop.induct gb width length baseId S hbox with
  | case1 st hsub hq =>
    rw [bfsLoop, hq]
  | case2 st hsub c rest hq ih =>
    rw [bfsLoop, hq]
    intro p hp
    apply ih
    obtain ⟨added, hqe, hprops, hiff, hcompl⟩ :=
      visitFold_main gb width length baseId (neighborsOf c) { st with queue := rest }
    exact (hiff p).mpr (Or.inl hp)

/-- Soundness: everything the BFS visits is already visited or reachable
from a worklist entry via admissible steps. -/
theorem bfsLoop_sound (gb : Int → Int → Option String) (width length : Int)
    (baseId : String) (S : Finset (Int × Int))
    (hbox : ∀ p : Int × Int, ¬(p.1 < 0 ∨ width ≤ p.1 ∨ p.2 < 0 ∨ length ≤ p.2) → p ∈ S)
    (st : BfsState) (hsub : st.cells ⊆ S) :
    ∀ p ∈ (bfsLoop gb width length baseId S hbox st hsub).cells,
      p ∈ st.cells
        ∨ ∃ q ∈ st.queue, Relation.ReflTransGen (ffStep gb width length baseId) q p := by
  induction st, hsub using bfsLoop.induct gb width length baseId S hbox with
  | case1 st hsub hq =>
    intro p hp
    rw [bfsLoop, hq] at hp
    exact Or.inl hp
  | case2 st hsub c rest hq ih =>
    intro p hp
    rw [bfsLoop, hq] at hp
    obtain ⟨added, hqe, hprops, hiff, hcompl⟩ :=
      visitFold_main gb width length baseId (neighborsOf c) { st with queue := rest }
    rcases ih p hp with hcell | ⟨q, hqmem, hreach⟩
    · rcases (hiff p).mp hcell with hold | hadd
      · exact Or.inl hold
      · refine Or.inr ⟨c, by rw [hq]; exact List.mem_cons_self c rest, ?_⟩
        exact Relation.ReflTransGen.single ⟨(hprops p hadd).1, (hprops p hadd).2⟩
    · rw [hqe] at hqmem
      rcases List.mem_append.mp hqmem with hq1 | hq2
      · exact Or.inr ⟨q, by rw [hq]; exact List.mem_cons_of_mem _ hq1, hreach⟩
      · refine Or.inr ⟨c, by rw [hq]; exact List.mem_cons_self c rest, ?_⟩
        exact Relation.ReflTransGen.head ⟨(hprops q hq2).1, (hprops q hq2).2⟩ hreach

/-- Closure: if every processed cell already has its admissible neighbors
visited, the final visited set is closed under admissible steps. -/
theorem bfsLoop_closed (gb : Int → Int → Option String) (width length : Int)
    (baseId : String) (S : Finset (Int × Int))
    (hbox : ∀ p : Int × Int, ¬(p.1 < 0 ∨ width ≤ p.1 ∨ p.2 < 0 ∨ length ≤ p.2) → p ∈ S)
    (st : BfsState) (hsub : st.cells ⊆ S) :
    (∀ p ∈ st.cells, p ∉ st.queue →
      ∀ n, ffStep gb width length baseId p n → n ∈ st.cells) →
    ∀ p ∈ (bfsLoop gb width length baseId S hbox st hsub).cells,
      ∀ n, ffStep gb width length baseId p n →
        n ∈ (bfsLoop gb width length baseId S hbox st hsub).cells := by
  induction st, hsub using bfsLoop.induct gb width length baseId S hbox with
  | case1 st hsub hq =>
    intro hinv p hp n hstep
    rw [bfsLoop, hq] at hp ⊢
    exact hinv p hp (by rw [hq]; simp) n hstep
  | case2 st hsub c rest hq ih =>
    intro hinv p hp n hstep
    rw [bfsLoop, hq] at hp ⊢
    obtain ⟨added, hqe, hprops, hiff, hcompl⟩ :=
      visitFold_main gb width length baseId (neighborsOf c) { st with queue := rest }
    refine ih ?_ p hp n hstep
    intro p' hp' hnq' n' hstep'
    rcases (hiff p').mp hp' with hold | hadd
    · by_cases hpc : p' = c
      · subst hpc
        exact hcompl n' hstep'.1 hstep'.2
      · have hnotq : p' ∉ st.queue := by
          rw [hq]
          intro hmem
          rcases List.mem_cons.mp hmem with h | h
          · exact hpc h
          · exact hnq' (by rw [hqe]; exact List.mem_append_left _ h)
        exact (hiff n').mpr (Or.inl (hinv p' hold hnotq n' hstep'))
    · exact absurd (by rw [hqe]; exact List.mem_append_right _ hadd) hnq'

/-- The running bounding box is exactly the bounding box of the visited
set: every visited cell lies inside it, and each of its four sides is
realized by a visited cell. -/
def bboxOk (st : BfsState) : Prop :=
  (∀ p ∈ st.cells, st.minX ≤ p.1 ∧ p.1 ≤ st.maxX ∧ st.minZ ≤ p.2 ∧ p.2 ≤ st.maxZ)
  ∧ (∃ p ∈ st.cells, p.1 = st.minX) ∧ (∃ p ∈ st.cells, p.1 = st.maxX)
  ∧ (∃ p ∈ st.cells, p.2 = st.minZ) ∧ (∃ p ∈ st.cells, p.2 = st.maxZ)

theorem visitNeighbor_bbox (gb : Int → Int → Option String) (width length : Int)
    (baseId : String) (st : BfsState) (n : Int × Int) (h : bboxOk st) :
    bboxOk (visitNeighbor gb width length baseId st n) := by
  rcases visitNeighbor_cases2 gb width length baseId st n with ⟨heq, _⟩ | ⟨_, _, heq⟩
  · rw [heq]
    exact h
  · rw [heq]
    obtain ⟨hbound, ⟨p1, hp1, he1⟩, ⟨p2, hp2, he2⟩, ⟨p3, hp3, he3⟩, ⟨p4, hp4, he4⟩⟩ := h
    refine ⟨?_, ?_, ?_, ?_, ?_⟩
    · intro p hp
      simp only [Finset.mem_insert] at hp
      rcases hp with rfl | hp
      · refine ⟨?_, ?_, ?_, ?_⟩ <;> simp only [] <;> split <;> omega
      · have := hbound p hp
        refine ⟨?_, ?_, ?_, ?_⟩ <;> simp only [] <;> split <;> omega
    · simp only []
      split
      · exact ⟨n, Finset.mem_insert_self _ _, rfl⟩
      · exact ⟨p1, Finset.mem_insert_of_mem hp1, he1⟩
    · simp only []
      split
      · exact ⟨n, Finset.mem_insert_self _ _, rfl⟩
      · exact ⟨p2, Finset.mem_insert_of_mem hp2, he2⟩
    · simp only []
      split
      · exact ⟨n, Finset.mem_insert_self _ _, rfl⟩
      · exact ⟨p3, Finset.mem_insert_of_mem hp3, he3⟩
    · simp only []
      split
      · exact ⟨n, Finset.mem_insert_self _ _, rfl⟩
      · exact ⟨p4, Finset.mem_insert_of_mem hp4, he4⟩

theorem visitFold_bbox (gb : Int → Int → Option String) (width length : Int)
    (baseId : String) :
    ∀ (ns : List (Int × Int)) (st : BfsState), bboxOk st →
      bboxOk (List.foldl (visitNeighbor gb width length baseId) st ns) := by
  intro ns
  induction ns with
  | nil => intro st h; exact h
  | cons n ns ih =>
    intro st h
    rw [List.foldl_cons]
    exact ih _ (visitNeighbor_bbox gb width length baseId st n h)

theorem bfsLoop_bbox (gb : Int → Int → Option String) (width length : Int)
    (baseId : String) (S : Finset (Int × Int))
    (hbox : ∀ p : Int × Int, ¬(p.1 < 0 ∨ width ≤ p.1 ∨ p.2 < 0 ∨ length ≤ p.2) → p ∈ S)
    (st : BfsState) (hsub : st.cells ⊆ S) :
    bboxOk st → bboxOk (bfsLoop gb width length baseId S hbox st hsub) := by
  induction st, hsub using bfsLoop.induct gb width length baseId S hbox with
  | case1 st hsub hq =>
    intro h
    rw [bfsLoop, hq]
    exact h
  | case2 st hsub c rest hq ih =>
    intro h
    rw [bfsLoop, hq]
    refine ih ?_
    apply visitFold_bbox
    exact h

/-- **C4.**  `floodFill` returns "no region" when the start cell is air or
has no base identifier; otherwise it returns exactly the 4-directionally
connected component (via `ffStep` — in-bounds cells whose base identifier,
property suffix stripped, equals the start cell's) of the start cell,
together with its exact axis-aligned bounding box
(`minX/minZ/maxX/maxZ`, `w/h` spans) and `count` equal to the set's
size.  The set-valued characterization is traversal-order independent. -/
theorem claim4_floodFill (gb : Int → Int → Option String) (width length sx sz : Int) :
    ((getBaseBlockId (gb sx sz) = none
        ∨ ∃ b, getBaseBlockId (gb sx sz) = some b
            ∧ (b = "" ∨ isAir (some ("minecraft:" ++ b)) = true)) →
      floodFill gb width length sx sz = none)
    ∧ ∀ b, getBaseBlockId (gb sx sz) = some b → b ≠ "" →
        isAir (some ("minecraft:" ++ b)) = false →
        ∃ r, floodFill gb width length sx sz = some r
          ∧ ↑r.cells
              = {p : Int × Int | Relation.ReflTransGen (ffStep gb width length b) (sx, sz) p}
          ∧ (∀ p ∈ r.cells, r.minX ≤ p.1 ∧ p.1 ≤ r.maxX ∧ r.minZ ≤ p.2 ∧ p.2 ≤ r.maxZ)
          ∧ (∃ p ∈ r.cells, p.1 = r.minX) ∧ (∃ p ∈ r.cells, p.1 = r.maxX)
          ∧ (∃ p ∈ r.cells, p.2 = r.minZ) ∧ (∃ p ∈ r.cells, p.2 = r.maxZ)
          ∧ r.w = r.maxX - r.minX + 1 ∧ r.h = r.maxZ - r.minZ + 1
          ∧ r.count = r.cells.card := by
  constructor
  · intro hcase
    unfold floodFill
    rcases hcase with hnone | ⟨b, hsome, hcond⟩
    · rw [hnone]
    · rw [hsome]
      have hb : (decide (b = "") || isAir (some ("minecraft:" ++ b))) = true := by
        rcases hcond with h | h <;> simp [h]
      simp only
      rw [if_pos hb]
  · intro b hb hbne hair
    have hcond : ¬ ((decide (b = "") || isAir (some ("minecraft:" ++ b))) = true) := by
      simp [hbne, hair]
    set S : Finset (Int × Int) :=
      insert (sx, sz) (Finset.Icc (0 : Int) (width - 1) ×ˢ Finset.Icc (0 : Int) (length - 1))
      with hS
    have hboxS : ∀ p : Int × Int,
        ¬(p.1 < 0 ∨ width ≤ p.1 ∨ p.2 < 0 ∨ length ≤ p.2) → p ∈ S := by
      intro p hp
      apply Finset.mem_insert_of_mem
      rw [Finset.mem_product, Finset.mem_Icc, Finset.mem_Icc]
      omega
    set st0 : BfsState :=
      { cells := {(sx, sz)}, queue := [(sx, sz)],
        minX := sx, maxX := sx, minZ := sz, maxZ := sz } with hst0
    have hsub0 : st0.cells ⊆ S := by simp [hst0, hS]
    set F := bfsLoop gb width length b S hboxS st0 hsub0 with hF
    have hff : floodFill gb width length sx sz
        = some { cells := F.cells, minX := F.minX, minZ := F.minZ,
                 maxX := F.maxX, maxZ := F.maxZ,
                 w := F.maxX - F.minX + 1, h := F.maxZ - F.minZ + 1,
                 count := F.cells.card } := by
      unfold floodFill
      rw [hb]
      simp only
      rw [if_neg hcond]
    have hmono := bfsLoop_mono gb width length b S hboxS st0 hsub0
    have hstart : (sx, sz) ∈ F.cells := hmono (by simp [hst0])
    have hsound := bfsLoop_sound gb width length b S hboxS st0 hsub0
    have hclosed := bfsLoop_closed gb width length b S hboxS st0 hsub0
      (by
        intro p hp hnq n hstep
        simp only [hst0, Finset.mem_singleton] at hp
        subst hp
        exact absurd (by simp [hst0]) hnq)
    have hbbox := bfsLoop_bbox gb width length b S hboxS st0 hsub0
      (by
        refine ⟨?_, ⟨(sx, sz), by simp [hst0], rfl⟩, ⟨(sx, sz), by simp [hst0], rfl⟩,
          ⟨(sx, sz), by simp [hst0], rfl⟩, ⟨(sx, sz), by simp [hst0], rfl⟩⟩
        intro p hp
        simp only [hst0, Finset.mem_singleton] at hp
        subst hp
        simp [hst0])
    have hsetEq : ↑F.cells
        = {p : Int × Int | Relation.ReflTransGen (ffStep gb width length b) (sx, sz) p} := by
      ext p
      simp only [Finset.coe_sort_coe, Finset.mem_coe, Set.mem_setOf_eq]
      constructor
      · intro hp
        rcases hsound p hp with hcell | ⟨q, hqmem, hreach⟩
        · simp only [hst0, Finset.mem_singleton] at hcell
          subst hcell
          exact Relation.ReflTransGen.refl
        · simp only [hst0, List.mem_singleton] at hqmem
          subst hqmem
          exact hreach
      · intro hp
        induction hp with
        | refl => exact hstart
        | tail hab hbc ih => exact hclosed _ ih _ hbc
    obtain ⟨hbound, hr1, hr2, hr3, hr4⟩ := hbbox
    exact ⟨_, hff, hsetEq, hbound, hr1, hr2, hr3, hr4, rfl, rfl, rfl⟩

/-- Concrete layer slice for the C4 witness: a single stone cell at the
origin. -/
def ffWitnessGb : Int → Int → Option String :=
  fun x z => if x = 0 ∧ z = 0 then some "minecraft:stone" else none

/-- Witness for C4 on a 1×1 layer holding one stone block. -/
theorem claim4_witness :
    ∃ r, floodFill ffWitnessGb 1 1 0 0 = some r
      ∧ ↑r.cells
          = {p : Int × Int | Relation.ReflTransGen (ffStep ffWitnessGb 1 1 "stone") (0, 0) p}
      ∧ (∀ p ∈ r.cells, r.minX ≤ p.1 ∧ p.1 ≤ r.maxX ∧ r.minZ ≤ p.2 ∧ p.2 ≤ r.maxZ)
      ∧ (∃ p ∈ r.cells, p.1 = r.minX) ∧ (∃ p ∈ r.cells, p.1 = r.maxX)
      ∧ (∃ p ∈ r.cells, p.2 = r.minZ) ∧ (∃ p ∈ r.cells, p.2 = r.maxZ)
      ∧ r.w = r.maxX - r.minX + 1 ∧ r.h = r.maxZ - r.minZ + 1
      ∧ r.count = r.cells.card :=
  (claim4_floodFill ffWitnessGb 1 1 0 0).2 "stone" (by rfl) (by decide) (by rfl)

end SchematicViewer
